import Mathlib

/-!
Verification of the blocksmith geometry/UV core against its specification.

Shallow embedding of:
- converters/coordinate_utils.py (axis-remapping transforms)
- schema/blockjson.py            (construction-time validation)
- converters/bbmodel/exporter.py (world-pivot resolution loop)
- converters/rotation_utils.py   (quaternion/Euler conversion, gimbal lock)
- converters/uv_mapper.py and converters/bbmodel/importer.py (UV flips)
- texturing/smart_uv_packer.py   (shelf rectangle packing)
- texturing/uv_atlas.py          (box-UV strips and strip packing)

Python floats are modelled as real numbers where trigonometry is involved
and as rationals where all arithmetic is exact decimal/integer arithmetic.
Python ints are modelled as Int or Nat as noted at each definition.
-/

namespace Blocksmith

/-- A 3-vector of reals, standing for a Python list [x, y, z] of floats. -/
structure Vec3 where
  x : ℝ
  y : ℝ
  z : ℝ

/-- A quaternion [w, x, y, z] of reals, as used throughout the converters. -/
structure Quat where
  w : ℝ
  x : ℝ
  y : ℝ
  z : ℝ

/-! ## coordinate_utils.py -/

/-- transform_position_blender_to_v3: Blender (x, y, z) ↦ v3 (x, z, -y). -/
def transform_position_blender_to_v3 (p : Vec3) : Vec3 :=
  ⟨p.x, p.z, -p.y⟩

/-- transform_position_v3_to_blender: v3 (x, y, z) ↦ Blender (x, -z, y). -/
def transform_position_v3_to_blender (p : Vec3) : Vec3 :=
  ⟨p.x, -p.z, p.y⟩

/-- transform_quaternion_blender_to_v3: [w, x, y, z] ↦ [w, x, z, -y]. -/
def transform_quaternion_blender_to_v3 (q : Quat) : Quat :=
  ⟨q.w, q.x, q.z, -q.y⟩

/-- transform_quaternion_v3_to_blender: [w, x, y, z] ↦ [w, x, -z, y]. -/
def transform_quaternion_v3_to_blender (q : Quat) : Quat :=
  ⟨q.w, q.x, -q.z, q.y⟩


/-! ## schema/blockjson.py — data model and construction-time validation

Pydantic models are embedded as Lean structures over exact rationals.
Fields that no validator reads and no claim mentions (metadata, mime
handling, interpolation and loop_mode literals, import_source literals)
are carried as plain data or omitted; the validators that run at
construction (validate_bounds, validate_faces, validate_frames, and the
pydantic length constraints on uv and resolution) are embedded below. -/

/-- A rational 3-vector, standing for a length-3 Python float list. -/
abbrev Vec3Q := ℚ × ℚ × ℚ

inductive FaceEnum
  | front | back | left | right | top | bottom
deriving DecidableEq

/-- The six face keys, the members of FaceEnum. -/
def FaceEnum.all : List FaceEnum :=
  [.front, .back, .left, .right, .top, .bottom]

structure FaceTexture where
  atlas_id : String
  uv : List ℚ

/-- Fields shared by all entities (BaseEntity). -/
structure BaseFields where
  id : String
  label : String
  parent : Option String
  pivot : Vec3Q
  rotation : List ℚ
  scale : Vec3Q

structure CuboidEntity where
  base : BaseFields
  from_ : Vec3Q
  to_ : Vec3Q
  faces : List (FaceEnum × FaceTexture)
  inflate : ℚ

structure GroupEntity where
  base : BaseFields

/-- Entity = Union[CuboidEntity, GroupEntity]. -/
inductive Entity
  | cuboid (c : CuboidEntity)
  | group (g : GroupEntity)

def Entity.base : Entity → BaseFields
  | .cuboid c => c.base
  | .group g => g.base

def Entity.entId (e : Entity) : String := e.base.id

def Entity.parent (e : Entity) : Option String := e.base.parent

def Entity.pivot (e : Entity) : Vec3Q := e.base.pivot

inductive ChanProp
  | position | rotation | scale
deriving DecidableEq

/-- A keyframe dict {time, value}; time is a Python int, value a list. -/
structure Frame where
  time : ℤ
  value : List ℚ

structure Channel where
  target_id : String
  property : ChanProp
  frames : List Frame

structure Animation where
  name : String
  duration : ℚ
  channels : List Channel

structure AtlasDefinition where
  data : String
  mime : String
  resolution : List ℤ

structure MetaModel where
  schema_version : String
  fps : ℤ
  texel_density : ℤ
  atlases : List (String × AtlasDefinition)

structure ModelDefinition where
  meta : MetaModel
  entities : List Entity
  animations : Option (List Animation)

/-- CuboidEntity.validate_faces: set(v.keys()) == set(FaceEnum). -/
def validate_faces (c : CuboidEntity) : Bool :=
  decide (∀ f ∈ FaceEnum.all, f ∈ c.faces.map Prod.fst)

/-- CuboidEntity.validate_bounds: any component of to - from negative fails. -/
def validate_bounds (c : CuboidEntity) : Bool :=
  !(c.to_.1 - c.from_.1 < 0 || c.to_.2.1 - c.from_.2.1 < 0 || c.to_.2.2 - c.from_.2.2 < 0)

/-- Pydantic length constraint on FaceTexture.uv (min_length=4, max_length=4). -/
def validate_face_texture (ft : FaceTexture) : Bool :=
  ft.uv.length = 4

def validate_cuboid (c : CuboidEntity) : Except String Unit :=
  if !c.faces.all (fun p => validate_face_texture p.2) then
    .error "uv must have exactly 4 items"
  else if !validate_faces c then .error "Must define all six faces"
  else if !validate_bounds c then .error "to must be >= from in all dimensions"
  else .ok ()

def validate_entity : Entity → Except String Unit
  | .cuboid c => validate_cuboid c
  | .group _ => .ok ()

/-- The per-frame loop body of Channel.validate_frames. -/
def checkFrames (property : ChanProp) : ℤ → List Frame → Except String Unit
  | _, [] => .ok ()
  | prev, f :: rest =>
    if f.time ≤ prev then .error "Times must be increasing integers"
    else if property = ChanProp.rotation then
      if f.value.length = 4 then checkFrames property f.time rest
      else .error "Rotation values must be Quat4"
    else
      if f.value.length = 3 then checkFrames property f.time rest
      else .error "Position and scale values must be Vec3"

/-- Channel.validate_frames: cap at 128 keyframes, then walk the frames. -/
def validate_channel (ch : Channel) : Except String Unit :=
  if 128 < ch.frames.length then .error "Max 128 keyframes per channel"
  else checkFrames ch.property (-1) ch.frames

/-- Pydantic length constraint on AtlasDefinition.resolution. -/
def validate_atlas (a : AtlasDefinition) : Bool :=
  a.resolution.length = 2

/-- Run a list of checks, stopping at the first error (pydantic raises). -/
def seqChecks : List (Except String Unit) → Except String Unit
  | [] => .ok ()
  | .error e :: _ => .error e
  | .ok _ :: rest => seqChecks rest

/-- All validators that run while pydantic constructs a ModelDefinition. -/
def modelChecks (meta : MetaModel) (entities : List Entity)
    (animations : Option (List Animation)) : Except String Unit :=
  let atlasChecks := meta.atlases.map fun p =>
    if validate_atlas p.2 then Except.ok () else Except.error "resolution must have exactly 2 items"
  let entityChecks := entities.map validate_entity
  let channelChecks := ((animations.getD []).flatMap fun a => a.channels).map validate_channel
  seqChecks (atlasChecks ++ entityChecks ++ channelChecks)

/-- Constructing a ModelDefinition: exactly the validators present in
blockjson.py run; there is no validator over entity ids or parent links. -/
def mkModelDefinition (meta : MetaModel) (entities : List Entity)
    (animations : Option (List Animation)) : Except String ModelDefinition :=
  match modelChecks meta entities animations with
  | .error e => .error e
  | .ok _ => .ok ⟨meta, entities, animations⟩

/-! ## converters/bbmodel/exporter.py: _calculate_world_pivot -/

def lookupEnt (d : List (String × Entity)) (k : String) : Option Entity :=
  (d.find? fun p => p.1 = k).map Prod.snd

def addVec (a b : Vec3Q) : Vec3Q :=
  (a.1 + b.1, a.2.1 + b.2.1, a.2.2 + b.2.2)

/-- The while-loop of _calculate_world_pivot, with an explicit fuel bound:
`none` means the loop is still running after `fuel` iterations.  The loop
guard is the Python truthiness test `current_parent_id and current_parent_id
in entities_dict` (a None or empty-string parent id, or an id missing from
the dict, exits the loop). -/
def worldPivotGo (d : List (String × Entity)) :
    ℕ → Vec3Q → Option String → Option Vec3Q
  | _, wp, none => some wp
  | fuel, wp, some p =>
    if p = "" then some wp
    else
      match lookupEnt d p with
      | none => some wp
      | some ent =>
        match fuel with
        | 0 => none
        | Nat.succ fuel => worldPivotGo d fuel (addVec wp ent.pivot) ent.parent

/-- _calculate_world_pivot(entity, entities_dict), fuel-bounded. -/
def calculate_world_pivot (ent : Entity) (d : List (String × Entity))
    (fuel : ℕ) : Option Vec3Q :=
  worldPivotGo d fuel ent.pivot ent.parent



/-- C1: the Blender↔v3 position transforms and quaternion transforms are
mutual inverses, exactly (these maps are pure permutations with one sign
flip, so the 1e-10 float tolerance is met with exact equality). -/
theorem coordinate_transforms_are_mutual_inverses :
    ∀ (v : Vec3) (q : Quat),
      transform_position_v3_to_blender (transform_position_blender_to_v3 v) = v ∧
      transform_position_blender_to_v3 (transform_position_v3_to_blender v) = v ∧
      transform_quaternion_v3_to_blender (transform_quaternion_blender_to_v3 q) = q ∧
      transform_quaternion_blender_to_v3 (transform_quaternion_v3_to_blender q) = q := by
  intro v q
  refine ⟨?_, ?_, ?_, ?_⟩ <;>
    simp [transform_position_blender_to_v3, transform_position_v3_to_blender,
      transform_quaternion_blender_to_v3, transform_quaternion_v3_to_blender]

/-! ## converters/rotation_utils.py

The module prefers scipy when importable; scipy is an external library,
so the in-repository pure-math fallback path (_quaternion_to_euler_xyz_fallback,
_euler_to_quaternion_xyz_fallback) is what is embedded here.  Python floats
are modelled as reals; Python round(x, 2) is round-half-to-even at two
decimal places, modelled exactly on the real value. -/

/-- math.atan2(y, x): the argument of the complex number x + y*I. -/
noncomputable def atan2 (y x : ℝ) : ℝ := Complex.arg ⟨x, y⟩

/-- math.degrees. -/
noncomputable def degrees (x : ℝ) : ℝ := x * 180 / Real.pi

/-- math.radians. -/
noncomputable def radians (x : ℝ) : ℝ := x * Real.pi / 180

/-- math.copysign(a, b) for nonzero b. -/
noncomputable def copysign (a b : ℝ) : ℝ := if b < 0 then -|a| else |a|

/-- Python round-half-to-even to the nearest integer. -/
noncomputable def pyRoundR (x : ℝ) : ℤ :=
  if Int.fract x < 1 / 2 then ⌊x⌋
  else if 1 / 2 < Int.fract x then ⌊x⌋ + 1
  else if Even ⌊x⌋ then ⌊x⌋ else ⌊x⌋ + 1

/-- The two while-loops of _normalize_angle: the unique representative of
the angle in (-180, 180] modulo 360. -/
noncomputable def wrap_angle (a : ℝ) : ℝ :=
  toIocMod (show (0 : ℝ) < 360 by norm_num) (-180) a

/-- _normalize_angle: wrap into (-180, 180], then round(angle_deg, 2). -/
noncomputable def normalize_angle (a : ℝ) : ℝ :=
  (pyRoundR (100 * wrap_angle a) : ℝ) / 100

/-- _normalize_quaternion: unit length, then sign convention w >= 0. -/
noncomputable def normalize_quaternion (q : Quat) : Quat :=
  let magnitude := Real.sqrt (q.w * q.w + q.x * q.x + q.y * q.y + q.z * q.z)
  if magnitude = 0 then ⟨1, 0, 0, 0⟩
  else
    let n : Quat := ⟨q.w / magnitude, q.x / magnitude, q.y / magnitude, q.z / magnitude⟩
    if n.w < 0 then ⟨-n.w, -n.x, -n.y, -n.z⟩ else n

/-- _quaternion_to_euler_xyz_fallback. -/
noncomputable def quaternion_to_euler_xyz_fallback (quat : Quat) : ℝ × ℝ × ℝ :=
  let q := normalize_quaternion quat
  let sinr_cosp := 2 * (q.w * q.x + q.y * q.z)
  let cosr_cosp := 1 - 2 * (q.x * q.x + q.y * q.y)
  let roll := atan2 sinr_cosp cosr_cosp
  let sinp := 2 * (q.w * q.y - q.z * q.x)
  let pitch := if 1 ≤ |sinp| then copysign (Real.pi / 2) sinp else Real.arcsin sinp
  let siny_cosp := 2 * (q.w * q.z + q.x * q.y)
  let cosy_cosp := 1 - 2 * (q.y * q.y + q.z * q.z)
  let yaw := atan2 siny_cosp cosy_cosp
  (normalize_angle (degrees roll), normalize_angle (degrees pitch),
    normalize_angle (degrees yaw))

/-- quaternion_to_euler (fallback path, scipy being external). -/
noncomputable def quaternion_to_euler (quat : Quat) : ℝ × ℝ × ℝ :=
  quaternion_to_euler_xyz_fallback quat

/-- _euler_to_quaternion_xyz_fallback. -/
noncomputable def euler_to_quaternion_xyz_fallback (euler : ℝ × ℝ × ℝ) : Quat :=
  let roll := radians euler.1
  let pitch := radians euler.2.1
  let yaw := radians euler.2.2
  let cr := Real.cos (roll * (1 / 2))
  let sr := Real.sin (roll * (1 / 2))
  let cp := Real.cos (pitch * (1 / 2))
  let sp := Real.sin (pitch * (1 / 2))
  let cy := Real.cos (yaw * (1 / 2))
  let sy := Real.sin (yaw * (1 / 2))
  normalize_quaternion
    ⟨cr * cp * cy - sr * sp * sy,
      sr * cp * cy + cr * sp * sy,
      cr * sp * cy - sr * cp * sy,
      cr * cp * sy + sr * sp * cy⟩

/-- euler_to_quaternion (fallback path; the result is already normalized,
the outer call repeats _normalize_quaternion as in the source). -/
noncomputable def euler_to_quaternion (euler : ℝ × ℝ × ℝ) : Quat :=
  normalize_quaternion (euler_to_quaternion_xyz_fallback euler)

/-- is_gimbal_lock: the middle (Y pitch) angle within tolerance of +-90.
The inputs the claims evaluate are exact decimals, so this is embedded
over the rationals, executably. -/
def is_gimbal_lock (euler : ℚ × ℚ × ℚ) (tolerance : ℚ) : Bool :=
  |(|euler.2.1|) - 90| < tolerance

/-! ## Theorems for C2 and C3 -/

/-- Rewrite the id and parent fields of an entity by arbitrary functions. -/
def relabelBase (f : String → String) (g : Option String → Option String)
    (b : BaseFields) : BaseFields :=
  { b with id := f b.id, parent := g b.parent }

def Entity.relabel (f : String → String) (g : Option String → Option String) :
    Entity → Entity
  | .cuboid c => .cuboid { c with base := relabelBase f g c.base }
  | .group gr => .group { gr with base := relabelBase f g gr.base }

theorem validate_entity_relabel (f : String → String)
    (g : Option String → Option String) (e : Entity) :
    validate_entity (Entity.relabel f g e) = validate_entity e := by
  cases e <;> rfl

/-- A minimal well-formed meta block with one 16x16 atlas. -/
def meta0 : MetaModel :=
  ⟨"3.0", 24, 16, [("main", ⟨"", "image/png", [16, 16]⟩)]⟩

/-- A group entity with the given id and parent (groups have no geometry,
so no cuboid validator applies to them). -/
def gEnt (i : String) (p : Option String) : Entity :=
  .group ⟨⟨i, i, p, (0, 0, 0), [1, 0, 0, 0], (1, 1, 1)⟩⟩

def entsDup : List Entity := [gEnt "a" none, gEnt "a" none]

def entsGhost : List Entity := [gEnt "a" (some "ghost")]

def entsCyc : List Entity := [gEnt "a" (some "b"), gEnt "b" (some "a")]

/-- C2 counterexample: a list with two entities of the same id, a list whose
only entity has a parent id that no entity carries, and a list whose parent
links form a 2-cycle all construct a ModelDefinition successfully; no
validation error is raised for any of them. -/
theorem mkModelDefinition_accepts_malformed_hierarchies :
    (mkModelDefinition meta0 entsDup none).isOk = true ∧
    entsDup.map Entity.entId = ["a", "a"] ∧
    (mkModelDefinition meta0 entsGhost none).isOk = true ∧
    entsGhost.map Entity.entId = ["a"] ∧
    entsGhost.map Entity.parent = [some "ghost"] ∧
    (mkModelDefinition meta0 entsCyc none).isOk = true ∧
    entsCyc.map Entity.entId = ["a", "b"] ∧
    entsCyc.map Entity.parent = [some "b", some "a"] := by
  refine ⟨rfl, rfl, rfl, rfl, rfl, rfl, rfl, rfl⟩

/-- C2 amended: ModelDefinition construction never inspects entity ids or
parent links — rewriting every id and every parent reference by arbitrary
functions leaves the construction outcome unchanged, so duplicate ids,
dangling parents and parent cycles never cause construction to fail. -/
theorem mkModelDefinition_ignores_ids_and_parents
    (f : String → String) (g : Option String → Option String)
    (meta : MetaModel) (ents : List Entity) (anims : Option (List Animation)) :
    (mkModelDefinition meta (ents.map (Entity.relabel f g)) anims).isOk =
      (mkModelDefinition meta ents anims).isOk := by
  have hmap : (ents.map (Entity.relabel f g)).map validate_entity =
      ents.map validate_entity := by
    rw [List.map_map]
    exact List.map_congr_left fun e _ => validate_entity_relabel f g e
  have hchecks : modelChecks meta (ents.map (Entity.relabel f g)) anims =
      modelChecks meta ents anims := by
    unfold modelChecks
    rw [hmap]
  unfold mkModelDefinition
  rw [hchecks]
  cases modelChecks meta ents anims <;> rfl

def cycEntA : Entity := gEnt "a" (some "b")

def cycEntB : Entity := gEnt "b" (some "a")

def cycDict : List (String × Entity) := [("a", cycEntA), ("b", cycEntB)]

theorem worldPivotGo_cyc_none :
    ∀ (fuel : ℕ) (wp : Vec3Q) (p : String), p = "a" ∨ p = "b" →
      worldPivotGo cycDict fuel wp (some p) = none := by
  intro fuel
  induction fuel with
  | zero =>
    intro wp p hp
    rcases hp with h | h <;> subst h <;> rfl
  | succ n ih =>
    intro wp p hp
    rcases hp with h | h <;> subst h
    · have h1 : worldPivotGo cycDict (n + 1) wp (some "a") =
          worldPivotGo cycDict n (addVec wp cycEntA.pivot) (some "b") := rfl
      rw [h1]
      exact ih _ "b" (Or.inr rfl)
    · have h1 : worldPivotGo cycDict (n + 1) wp (some "b") =
          worldPivotGo cycDict n (addVec wp cycEntB.pivot) (some "a") := rfl
      rw [h1]
      exact ih _ "a" (Or.inl rfl)

/-- C3: on the two-entity table whose parent links form a cycle
(a.parent = b, b.parent = a), the parent-chain walk of
_calculate_world_pivot never exits: for every iteration bound the loop is
still running, i.e. the function does not terminate on this input and no
data-integrity error is raised. -/
theorem calculate_world_pivot_diverges_on_cycle :
    ∀ fuel : ℕ, calculate_world_pivot cycEntA cycDict fuel = none := by
  intro fuel
  have h : calculate_world_pivot cycEntA cycDict fuel =
      worldPivotGo cycDict fuel cycEntA.pivot (some "b") := rfl
  rw [h]
  exact worldPivotGo_cyc_none fuel _ "b" (Or.inr rfl)

/-! ## Theorems for C5 and C10 -/

theorem pyRoundR_ge_floor (x : ℝ) : ⌊x⌋ ≤ pyRoundR x := by
  unfold pyRoundR
  split_ifs <;> omega

theorem pyRoundR_le_floor_add_one (x : ℝ) : pyRoundR x ≤ ⌊x⌋ + 1 := by
  unfold pyRoundR
  split_ifs <;> omega

/-- Every normalized angle lands in the closed interval [-180, 180]:
the wrap puts the angle in (-180, 180] and the final two-decimal rounding
can only move it within the closed interval. -/
theorem normalize_angle_mem_Icc (a : ℝ) :
    normalize_angle a ∈ Set.Icc (-180 : ℝ) 180 := by
  have hb : wrap_angle a ∈ Set.Ioc (-180 : ℝ) 180 := by
    unfold wrap_angle
    have h := toIocMod_mem_Ioc (show (0 : ℝ) < 360 by norm_num) (-180) a
    rwa [show (-180 : ℝ) + 360 = 180 by norm_num] at h
  obtain ⟨hb1, hb2⟩ := hb
  set x : ℝ := 100 * wrap_angle a with hxdef
  have hx1 : (-18000 : ℝ) < x := by rw [hxdef]; linarith
  have hx2 : x ≤ 18000 := by rw [hxdef]; linarith
  have hfl : (-18000 : ℤ) ≤ ⌊x⌋ := by
    apply Int.le_floor.mpr
    push_cast
    linarith
  have hfu : ⌊x⌋ ≤ 18000 := by
    have h := Int.floor_mono hx2
    rwa [show ⌊(18000 : ℝ)⌋ = 18000 by norm_num] at h
  have hlow : (-18000 : ℤ) ≤ pyRoundR x := le_trans hfl (pyRoundR_ge_floor x)
  have hhigh : pyRoundR x ≤ 18000 := by
    by_cases h : Int.fract x < 1 / 2
    · have hr : pyRoundR x = ⌊x⌋ := by unfold pyRoundR; rw [if_pos h]
      omega
    · have h1 := pyRoundR_le_floor_add_one x
      have h2 : ⌊x⌋ ≤ 17999 := by
        by_contra hc
        push_neg at hc
        have h18 : ⌊x⌋ = 18000 := by omega
        apply h
        have hfr : Int.fract x = x - (⌊x⌋ : ℝ) := (Int.self_sub_floor x).symm
        rw [hfr, h18]
        push_cast
        linarith
      omega
  have hlowR : (-18000 : ℝ) ≤ (pyRoundR x : ℝ) := by exact_mod_cast hlow
  have hhighR : (pyRoundR x : ℝ) ≤ 18000 := by exact_mod_cast hhigh
  unfold normalize_angle
  rw [← hxdef]
  constructor
  · rw [le_div_iff₀ (by norm_num : (0 : ℝ) < 100)]
    linarith
  · rw [div_le_iff₀ (by norm_num : (0 : ℝ) < 100)]
    linarith

/-- C5 amended: every component of quaternion_to_euler lies in the closed
interval [-180, 180] degrees (the final rounding to two decimals can send
an angle arbitrarily close to -180 to exactly -180, so the interval is
closed on the left, not half-open). -/
theorem quaternion_to_euler_components_bounded (q : Quat) :
    (quaternion_to_euler q).1 ∈ Set.Icc (-180 : ℝ) 180 ∧
    (quaternion_to_euler q).2.1 ∈ Set.Icc (-180 : ℝ) 180 ∧
    (quaternion_to_euler q).2.2 ∈ Set.Icc (-180 : ℝ) 180 :=
  ⟨normalize_angle_mem_Icc _, normalize_angle_mem_Icc _, normalize_angle_mem_Icc _⟩

/-- The rotation angle -179.998 degrees, whose roll survives wrapping
unchanged but is rounded to exactly -180 by round(angle, 2). -/
noncomputable def q0theta : ℝ := -(89999 : ℝ) / 500 * Real.pi / 180

/-- An x-axis rotation by -179.998 degrees as a unit quaternion. -/
noncomputable def q0 : Quat :=
  ⟨Real.cos (q0theta / 2), Real.sin (q0theta / 2), 0, 0⟩


theorem q0theta_gt_neg_pi : -Real.pi < q0theta := by
  unfold q0theta
  have hpi := Real.pi_pos
  linarith

theorem q0theta_neg : q0theta < 0 := by
  unfold q0theta
  have hpi := Real.pi_pos
  linarith

theorem q0_cos_half_pos : 0 < Real.cos (q0theta / 2) := by
  apply Real.cos_pos_of_mem_Ioo
  constructor
  · have := q0theta_gt_neg_pi
    linarith
  · have := q0theta_neg
    have hpi := Real.pi_pos
    linarith

theorem normalize_quaternion_q0 : normalize_quaternion q0 = q0 := by
  unfold normalize_quaternion
  have hsum : q0.w * q0.w + q0.x * q0.x + q0.y * q0.y + q0.z * q0.z = 1 := by
    show Real.cos (q0theta / 2) * Real.cos (q0theta / 2) +
        Real.sin (q0theta / 2) * Real.sin (q0theta / 2) + 0 * 0 + 0 * 0 = 1
    have h := Real.sin_sq_add_cos_sq (q0theta / 2)
    ring_nf
    ring_nf at h
    linarith
  rw [hsum, Real.sqrt_one, if_neg one_ne_zero]
  have hw : ¬ q0.w / 1 < 0 := by
    rw [div_one]
    push_neg
    exact le_of_lt q0_cos_half_pos
  rw [if_neg hw]
  show (⟨q0.w / 1, q0.x / 1, q0.y / 1, q0.z / 1⟩ : Quat) = q0
  simp only [div_one]

theorem q0_sinr_cosp : 2 * (q0.w * q0.x + q0.y * q0.z) = Real.sin q0theta := by
  show 2 * (Real.cos (q0theta / 2) * Real.sin (q0theta / 2) + 0 * 0) = Real.sin q0theta
  have h2 : q0theta = 2 * (q0theta / 2) := by ring
  rw [h2, Real.sin_two_mul]
  ring_nf

theorem q0_cosr_cosp : 1 - 2 * (q0.x * q0.x + q0.y * q0.y) = Real.cos q0theta := by
  show 1 - 2 * (Real.sin (q0theta / 2) * Real.sin (q0theta / 2) + 0 * 0) =
      Real.cos q0theta
  have h2 : q0theta = 2 * (q0theta / 2) := by ring
  rw [h2, Real.cos_two_mul]
  have h := Real.sin_sq_add_cos_sq (q0theta / 2)
  ring_nf
  ring_nf at h
  linarith

theorem q0_atan2 : atan2 (Real.sin q0theta) (Real.cos q0theta) = q0theta := by
  unfold atan2
  rw [Complex.mk_eq_add_mul_I, Complex.ofReal_cos, Complex.ofReal_sin]
  exact Complex.arg_cos_add_sin_mul_I
    ⟨q0theta_gt_neg_pi, by have := q0theta_neg; have := Real.pi_pos; linarith⟩

theorem q0_degrees : degrees q0theta = -(89999 : ℝ) / 500 := by
  unfold degrees q0theta
  have hpi := Real.pi_ne_zero
  field_simp
  ring_nf

theorem normalize_angle_at_counterexample :
    normalize_angle (-(89999 : ℝ) / 500) = -180 := by
  unfold normalize_angle
  have hwrap : wrap_angle (-(89999 : ℝ) / 500) = -(89999 : ℝ) / 500 := by
    unfold wrap_angle
    rw [toIocMod_eq_self]
    constructor
    · norm_num
    · norm_num
  rw [hwrap]
  have harg : (100 : ℝ) * (-(89999 : ℝ) / 500) = -89999 / 5 := by norm_num
  rw [harg]
  have hfloor : ⌊(-89999 : ℝ) / 5⌋ = -18000 := by
    apply Int.floor_eq_iff.mpr
    constructor
    · norm_num
    · norm_num
  have hfract : Int.fract ((-89999 : ℝ) / 5) = 1 / 5 := by
    rw [← Int.self_sub_floor, hfloor]
    norm_num
  unfold pyRoundR
  rw [hfract, if_pos (by norm_num : (1 : ℝ) / 5 < 1 / 2), hfloor]
  norm_num

/-- C5 counterexample: on the unit quaternion for an x-axis rotation by
-179.998 degrees, quaternion_to_euler returns a roll of exactly -180,
which is outside the half-open interval (-180, 180]: the two-decimal
rounding after wrapping sends angles in (-180, -179.995) to -180. -/
theorem quaternion_to_euler_returns_neg180 :
    (quaternion_to_euler q0).1 = -180 ∧
    (quaternion_to_euler q0).1 ∉ Set.Ioc (-180 : ℝ) 180 := by
  have hfst : (quaternion_to_euler q0).1 =
      normalize_angle (degrees (atan2 (2 * (q0.w * q0.x + q0.y * q0.z))
        (1 - 2 * (q0.x * q0.x + q0.y * q0.y)))) := by
    unfold quaternion_to_euler quaternion_to_euler_xyz_fallback
    rw [normalize_quaternion_q0]
  have hval : (quaternion_to_euler q0).1 = -180 := by
    rw [hfst, q0_sinr_cosp, q0_cosr_cosp, q0_atan2, q0_degrees,
      normalize_angle_at_counterexample]
  refine ⟨hval, ?_⟩
  rw [hval]
  simp

/-- C10 counterexample: with the default tolerance of 0.01 degrees,
is_gimbal_lock([0, 89, 0]) is false (|89 - 90| = 1 is not < 0.01),
contradicting the claim that it returns true. -/
theorem is_gimbal_lock_89_false :
    is_gimbal_lock (0, 89, 0) (1 / 100) = false := by
  simp only [is_gimbal_lock]
  norm_num

/-- C10 amended: with the default tolerance 0.01, is_gimbal_lock returns
false for both [0, 89, 0] and [0, 45, 0]; it returns true only when the
middle angle is within 0.01 of plus-or-minus 90, e.g. for [0, 89.999, 0]. -/
theorem is_gimbal_lock_default_values :
    is_gimbal_lock (0, 89, 0) (1 / 100) = false ∧
    is_gimbal_lock (0, 45, 0) (1 / 100) = false ∧
    is_gimbal_lock (0, 89999 / 1000, 0) (1 / 100) = true := by
  refine ⟨?_, ?_, ?_⟩ <;> simp only [is_gimbal_lock]
  · norm_num
  · norm_num
  · rw [abs_of_pos (by norm_num : (0 : ℚ) < 89999 / 1000), decide_eq_true_eq,
      show (89999 : ℚ) / 1000 - 90 = -(1 / 1000) by norm_num, abs_neg,
      abs_of_pos (by norm_num : (0 : ℚ) < 1 / 1000)]
    norm_num

/-! ## converters/uv_mapper.py and the BBModel importer UV un-flip

UVs are exact decimals here, so Python floats are modelled as rationals
and Python round() as exact round-half-to-even. Atlas sizes are Python
ints, modelled as Int. -/

/-- Python round-half-to-even on an exact rational (executable twin of
pyRoundR, used where the code works with exact pixel arithmetic). -/
def pyRound (q : ℚ) : ℤ :=
  if Int.fract q < 1 / 2 then ⌊q⌋
  else if 1 / 2 < Int.fract q then ⌊q⌋ + 1
  else if ⌊q⌋ % 2 = 0 then ⌊q⌋ else ⌊q⌋ + 1

def BBMODEL_FLIP_H : List String := ["left"]

def BBMODEL_FLIP_V : List String :=
  ["front", "back", "left", "right", "top", "bottom"]

/-- uv_mapper.to_bbmodel: denormalize to pixels, then apply the
Blockbench orientation flips. -/
def to_bbmodel (normalized_uvs : ℚ × ℚ × ℚ × ℚ) (v3_face_name : String)
    (atlas_w atlas_h : ℤ) : ℤ × ℤ × ℤ × ℤ :=
  let u1 := normalized_uvs.1
  let v1 := normalized_uvs.2.1
  let u2 := normalized_uvs.2.2.1
  let v2 := normalized_uvs.2.2.2
  let x1 := pyRound (u1 * atlas_w)
  let y1 := pyRound (v1 * atlas_h)
  let x2 := pyRound (u2 * atlas_w)
  let y2 := pyRound (v2 * atlas_h)
  let px := if v3_face_name ∈ BBMODEL_FLIP_H then (x2, x1) else (x1, x2)
  let py := if v3_face_name ∈ BBMODEL_FLIP_V then (y2, y1) else (y1, y2)
  (px.1, py.1, px.2, py.2)

/-- The per-face body of importer._extract_face_uvs: normalize the pixel
rect by the texture size, then un-flip (left gets both swaps, every other
face the V swap only). -/
def extract_face_uv (v3_face : String) (uv : ℤ × ℤ × ℤ × ℤ)
    (texture_width texture_height : ℤ) : ℚ × ℚ × ℚ × ℚ :=
  let u1 : ℚ := (uv.1 : ℚ) / (texture_width : ℚ)
  let v1 : ℚ := (uv.2.1 : ℚ) / (texture_height : ℚ)
  let u2 : ℚ := (uv.2.2.1 : ℚ) / (texture_width : ℚ)
  let v2 : ℚ := (uv.2.2.2 : ℚ) / (texture_height : ℚ)
  if v3_face = "left" then (u2, v2, u1, v1)
  else (u1, v2, u2, v1)

/-! ## Theorems for C6 and C7 -/

theorem pyRound_eq_floor_of (q : ℚ) (n : ℤ) (h1 : (n : ℚ) ≤ q)
    (h2 : q < (n : ℚ) + 1 / 2) : pyRound q = n := by
  have hfl : ⌊q⌋ = n := Int.floor_eq_iff.mpr ⟨h1, by linarith⟩
  have hfr : Int.fract q < 1 / 2 := by
    rw [← Int.self_sub_floor, hfl]
    linarith
  unfold pyRound
  rw [if_pos hfr, hfl]

theorem pyRound_eq_ceil_of (q : ℚ) (n : ℤ) (h1 : (n : ℚ) + 1 / 2 < q)
    (h2 : q < (n : ℚ) + 1) : pyRound q = n + 1 := by
  have hfl : ⌊q⌋ = n := Int.floor_eq_iff.mpr ⟨by linarith, by linarith⟩
  have hfr : 1 / 2 < Int.fract q := by
    rw [← Int.self_sub_floor, hfl]
    linarith
  unfold pyRound
  rw [if_neg (by linarith), if_pos hfr, hfl]

theorem pyRound_intCast (a : ℤ) : pyRound (a : ℚ) = a :=
  pyRound_eq_floor_of _ a (le_refl _) (by linarith)

/-- C6: to_bbmodel first denormalizes each coordinate by the atlas size
with round-half-even, then swaps the two U pixel values exactly for the
face "left", and swaps the two V pixel values for every one of the six
face names. -/
theorem to_bbmodel_flip_table (uvr : ℚ × ℚ × ℚ × ℚ) (w h : ℤ) :
    to_bbmodel uvr "left" w h =
      (pyRound (uvr.2.2.1 * w), pyRound (uvr.2.2.2 * h),
        pyRound (uvr.1 * w), pyRound (uvr.2.1 * h)) ∧
    to_bbmodel uvr "front" w h =
      (pyRound (uvr.1 * w), pyRound (uvr.2.2.2 * h),
        pyRound (uvr.2.2.1 * w), pyRound (uvr.2.1 * h)) ∧
    to_bbmodel uvr "back" w h =
      (pyRound (uvr.1 * w), pyRound (uvr.2.2.2 * h),
        pyRound (uvr.2.2.1 * w), pyRound (uvr.2.1 * h)) ∧
    to_bbmodel uvr "right" w h =
      (pyRound (uvr.1 * w), pyRound (uvr.2.2.2 * h),
        pyRound (uvr.2.2.1 * w), pyRound (uvr.2.1 * h)) ∧
    to_bbmodel uvr "top" w h =
      (pyRound (uvr.1 * w), pyRound (uvr.2.2.2 * h),
        pyRound (uvr.2.2.1 * w), pyRound (uvr.2.1 * h)) ∧
    to_bbmodel uvr "bottom" w h =
      (pyRound (uvr.1 * w), pyRound (uvr.2.2.2 * h),
        pyRound (uvr.2.2.1 * w), pyRound (uvr.2.1 * h)) :=
  ⟨rfl, rfl, rfl, rfl, rfl, rfl⟩

/-- C7 counterexample: on the non-pixel-aligned rectangle
[1/3, 0, 2/3, 1], face "front", atlas 16x16, exporting then importing
does not return the original rectangle: the round to integer pixels maps
1/3 to 5/16 and 2/3 to 11/16. -/
theorem uv_roundtrip_not_exact :
    extract_face_uv "front" (to_bbmodel (1 / 3, 0, 2 / 3, 1) "front" 16 16) 16 16 ≠
      ((1 / 3 : ℚ), (0 : ℚ), (2 / 3 : ℚ), (1 : ℚ)) := by
  have e1 : pyRound ((1 / 3 : ℚ) * ((16 : ℤ) : ℚ)) = 5 := by
    apply pyRound_eq_floor_of _ 5 <;> norm_num
  have e2 : pyRound ((0 : ℚ) * ((16 : ℤ) : ℚ)) = 0 := by
    apply pyRound_eq_floor_of _ 0 <;> norm_num
  have e3 : pyRound ((2 / 3 : ℚ) * ((16 : ℤ) : ℚ)) = 11 := by
    have h := pyRound_eq_ceil_of ((2 / 3 : ℚ) * ((16 : ℤ) : ℚ)) 10
      (by norm_num) (by norm_num)
    omega
  have e4 : pyRound ((1 : ℚ) * ((16 : ℤ) : ℚ)) = 16 := by
    apply pyRound_eq_floor_of _ 16 <;> norm_num
  have hexp : to_bbmodel (1 / 3, 0, 2 / 3, 1) "front" 16 16 = (5, 16, 11, 0) := by
    show (pyRound ((1 / 3 : ℚ) * ((16 : ℤ) : ℚ)),
        pyRound ((1 : ℚ) * ((16 : ℤ) : ℚ)),
        pyRound ((2 / 3 : ℚ) * ((16 : ℤ) : ℚ)),
        pyRound ((0 : ℚ) * ((16 : ℤ) : ℚ))) = (5, 16, 11, 0)
    rw [e1, e2, e3, e4]
  rw [hexp]
  have himp : extract_face_uv "front" (5, 16, 11, 0) 16 16 =
      ((5 / 16 : ℚ), (0 : ℚ), (11 / 16 : ℚ), (1 : ℚ)) := by
    show (((5 : ℤ) : ℚ) / ((16 : ℤ) : ℚ), ((0 : ℤ) : ℚ) / ((16 : ℤ) : ℚ),
        ((11 : ℤ) : ℚ) / ((16 : ℤ) : ℚ), ((16 : ℤ) : ℚ) / ((16 : ℤ) : ℚ)) =
      ((5 / 16 : ℚ), (0 : ℚ), (11 / 16 : ℚ), (1 : ℚ))
    push_cast
    norm_num
  rw [himp]
  simp only [ne_eq, Prod.mk.injEq, not_and]
  intro h5
  exfalso
  have : (5 : ℚ) / 16 ≠ 1 / 3 := by norm_num
  exact this h5

/-- C7 amended: the export flip then import un-flip returns the original
rectangle exactly whenever the rectangle is pixel-aligned on the atlas,
i.e. each of u1*w, v1*h, u2*w, v2*h is an integer (rounding to integer
pixels is then lossless); for other rectangles the round-trip returns the
pixel-rounded rectangle instead (see the counterexample). -/
theorem uv_roundtrip_exact_when_pixel_aligned
    (u1 v1 u2 v2 : ℚ) (face : String) (w h : ℤ)
    (hface : face ∈ BBMODEL_FLIP_V) (hw : 0 < w) (hh : 0 < h)
    (_hu1 : 0 ≤ u1) (_hu1b : u1 ≤ 1) (_hv1 : 0 ≤ v1) (_hv1b : v1 ≤ 1)
    (_hu2 : 0 ≤ u2) (_hu2b : u2 ≤ 1) (_hv2 : 0 ≤ v2) (_hv2b : v2 ≤ 1)
    (hpa : ∃ a : ℤ, u1 * w = a) (hpb : ∃ b : ℤ, v1 * h = b)
    (hpc : ∃ c : ℤ, u2 * w = c) (hpd : ∃ d : ℤ, v2 * h = d) :
    extract_face_uv face (to_bbmodel (u1, v1, u2, v2) face w h) w h =
      (u1, v1, u2, v2) := by
  obtain ⟨a, ha⟩ := hpa
  obtain ⟨b, hb⟩ := hpb
  obtain ⟨c, hc⟩ := hpc
  obtain ⟨d, hd⟩ := hpd
  have hwQ : ((w : ℚ)) ≠ 0 := by
    have : (0 : ℚ) < (w : ℚ) := by exact_mod_cast hw
    linarith
  have hhQ : ((h : ℚ)) ≠ 0 := by
    have : (0 : ℚ) < (h : ℚ) := by exact_mod_cast hh
    linarith
  have ea : pyRound (u1 * (w : ℚ)) = a := by rw [ha]; exact pyRound_intCast a
  have eb : pyRound (v1 * (h : ℚ)) = b := by rw [hb]; exact pyRound_intCast b
  have ec : pyRound (u2 * (w : ℚ)) = c := by rw [hc]; exact pyRound_intCast c
  have ed : pyRound (v2 * (h : ℚ)) = d := by rw [hd]; exact pyRound_intCast d
  have da : ((a : ℚ)) / (w : ℚ) = u1 := by rw [← ha]; exact mul_div_cancel_right₀ u1 hwQ
  have db : ((b : ℚ)) / (h : ℚ) = v1 := by rw [← hb]; exact mul_div_cancel_right₀ v1 hhQ
  have dc : ((c : ℚ)) / (w : ℚ) = u2 := by rw [← hc]; exact mul_div_cancel_right₀ u2 hwQ
  have dd : ((d : ℚ)) / (h : ℚ) = v2 := by rw [← hd]; exact mul_div_cancel_right₀ v2 hhQ
  by_cases hl : face = "left"
  · subst hl
    have hexp : to_bbmodel (u1, v1, u2, v2) "left" w h =
        (pyRound (u2 * (w : ℚ)), pyRound (v2 * (h : ℚ)),
          pyRound (u1 * (w : ℚ)), pyRound (v1 * (h : ℚ))) := rfl
    rw [hexp, ea, eb, ec, ed]
    have himp : extract_face_uv "left" (c, d, a, b) w h =
        (((a : ℚ)) / (w : ℚ), ((b : ℚ)) / (h : ℚ),
          ((c : ℚ)) / (w : ℚ), ((d : ℚ)) / (h : ℚ)) := rfl
    rw [himp, da, db, dc, dd]
  · have hH : face ∉ BBMODEL_FLIP_H := by simp [BBMODEL_FLIP_H, hl]
    have hexp : to_bbmodel (u1, v1, u2, v2) face w h =
        (pyRound (u1 * (w : ℚ)), pyRound (v2 * (h : ℚ)),
          pyRound (u2 * (w : ℚ)), pyRound (v1 * (h : ℚ))) := by
      simp only [to_bbmodel]
      rw [if_neg hH, if_pos hface]
    rw [hexp, ea, eb, ec, ed]
    have himp : extract_face_uv face (a, d, c, b) w h =
        (((a : ℚ)) / (w : ℚ), ((b : ℚ)) / (h : ℚ),
          ((c : ℚ)) / (w : ℚ), ((d : ℚ)) / (h : ℚ)) := by
      simp only [extract_face_uv]
      rw [if_neg hl]
    rw [himp, da, db, dc, dd]

/-- Witness for the amended C7 theorem at a concrete pixel-aligned input:
the rectangle [0, 0, 1/2, 1] on face "top" of a 16x16 atlas. -/
theorem uv_roundtrip_pixel_aligned_witness :
    extract_face_uv "top" (to_bbmodel (0, 0, 1 / 2, 1) "top" 16 16) 16 16 =
      ((0 : ℚ), (0 : ℚ), (1 / 2 : ℚ), (1 : ℚ)) :=
  uv_roundtrip_exact_when_pixel_aligned 0 0 (1 / 2) 1 "top" 16 16
    (by simp [BBMODEL_FLIP_V]) (by norm_num) (by norm_num)
    (by norm_num) (by norm_num) (by norm_num) (by norm_num)
    (by norm_num) (by norm_num) (by norm_num) (by norm_num)
    ⟨0, by push_cast; norm_num⟩ ⟨0, by push_cast; norm_num⟩
    ⟨8, by push_cast; norm_num⟩ ⟨16, by push_cast; norm_num⟩

/-! ## texturing/smart_uv_packer.py and texturing/uv_atlas.py

All pixel quantities are Python ints, modelled as Int. The two modules
duplicate the same greedy shelf algorithm (ShelfPacker and StripPacker);
the shared loop body is embedded once below and used by both. -/

/-- A shelf dict {y, height, x}: a horizontal band with its fill cursor. -/
structure Shelf where
  y : ℤ
  height : ℤ
  x : ℤ
deriving DecidableEq

/-- The for-loop over existing shelves in pack: place into the first shelf
with enough remaining width and sufficient height, advancing its cursor. -/
def tryShelves (W w h : ℤ) : List Shelf → Option (List Shelf × ℤ × ℤ)
  | [] => none
  | s :: rest =>
    if w ≤ W - s.x ∧ h ≤ s.height then
      some ({ s with x := s.x + w } :: rest, s.x, s.y)
    else
      (tryShelves W w h rest).map fun r => (s :: r.1, r.2.1, r.2.2)

/-- One pack(w, h) call: try existing shelves, else open a new shelf at
the bottom of the used region; None when the rect cannot fit. -/
def shelfPackOne (W H : ℤ) (shelves : List Shelf) (w h : ℤ) :
    Option (List Shelf × ℤ × ℤ) :=
  match tryShelves W w h shelves with
  | some r => some r
  | none =>
    let new_y := (shelves.map Shelf.height).sum
    if new_y + h > H ∨ w > W then none
    else some (shelves ++ [⟨new_y, h, w⟩], 0, new_y)

/-- next_power_of_2: 1 for n <= 0, else the least power of two >= n
(2 ** ceil(log2 n), exact on the integer inputs used here). -/
def next_power_of_2 (n : ℤ) : ℤ :=
  if n ≤ 0 then 1 else 2 ^ Nat.clog 2 n.toNat

/-- math.ceil(math.sqrt(a)) for a nonnegative integer. -/
def ceilSqrt (a : ℤ) : ℤ :=
  let s := Nat.sqrt a.toNat
  if (s * s : ℤ) = a.toNat then s else s + 1

/-- Python max over a non-empty list (0 for [], unreached at call sites). -/
def listMax : List ℤ → ℤ
  | [] => 0
  | x :: xs => xs.foldl max x

/-- A packed-rectangle dict {id, x, y, width, height}. -/
structure PlacedRect where
  id : ℕ
  x : ℤ
  y : ℤ
  width : ℤ
  height : ℤ
deriving DecidableEq

/-- The for-loop over sorted rects in pack_rectangles: pack each in turn,
fail as soon as one does not fit. -/
def packAllRects (W H : ℤ) :
    List (ℤ × ℤ × ℕ) → List Shelf → List PlacedRect → Option (List PlacedRect)
  | [], _, acc => some acc.reverse
  | (w, h, rid) :: rest, shelves, acc =>
    match shelfPackOne W H shelves w h with
    | some r => packAllRects W H rest r.1 (⟨rid, r.2.1, r.2.2, w, h⟩ :: acc)
    | none => none

/-- sorted(rects, key=(height, width), reverse=True): stable descending by
height then width. -/
def sortRects (rects : List (ℤ × ℤ × ℕ)) : List (ℤ × ℤ × ℕ) :=
  rects.mergeSort fun a b =>
    decide (b.2.1 < a.2.1 ∨ (b.2.1 = a.2.1 ∧ b.1 ≤ a.1))

/-- The doubling while-loop of pack_rectangles (the 0 < size guard is an
invariant of every call site, size >= 16, added to bound the recursion). -/
def packLoop (sorted_rects : List (ℤ × ℤ × ℕ)) (atlas_size : ℤ) :
    Option (List PlacedRect × ℤ × ℤ) :=
  if _h : 0 < atlas_size ∧ atlas_size ≤ 8192 then
    match packAllRects atlas_size atlas_size sorted_rects [] [] with
    | some placed => some (placed, atlas_size, atlas_size)
    | none => packLoop sorted_rects (atlas_size * 2)
  else none
termination_by (8193 - atlas_size).toNat
decreasing_by
  omega

/-- pack_rectangles: None models the RuntimeError past the 8192 bound. -/
def pack_rectangles (rects : List (ℤ × ℤ × ℕ)) :
    Option (List PlacedRect × ℤ × ℤ) :=
  if rects = [] then some ([], 16, 16)
  else
    let sorted_rects := sortRects rects
    let total_area := (rects.map fun r => r.1 * r.2.1).sum
    let min_dim := ceilSqrt total_area
    let start1 := max 16 (next_power_of_2 min_dim)
    let max_w := listMax (rects.map fun r => r.1)
    let max_h := listMax (rects.map fun r => r.2.1)
    let start_size := max start1 (next_power_of_2 (max max_w max_h))
    packLoop sorted_rects start_size

/-! uv_atlas.py -/

/-- calculate_cuboid_pixels: abs sizes scaled by the texel density,
rounded, floored at one pixel. -/
def calculate_cuboid_pixels (from_coords to_coords : Vec3Q)
    (texel_density : ℤ) : ℤ × ℤ × ℤ :=
  let size_x := |to_coords.1 - from_coords.1|
  let size_y := |to_coords.2.1 - from_coords.2.1|
  let size_z := |to_coords.2.2 - from_coords.2.2|
  (max 1 (pyRound (size_x * texel_density)),
    max 1 (pyRound (size_y * texel_density)),
    max 1 (pyRound (size_z * texel_density)))

/-- get_box_uv_face_rects: the fixed box-UV strip layout. -/
def get_box_uv_face_rects (w_px h_px d_px strip_x strip_y : ℤ) :
    List (String × (ℤ × ℤ × ℤ × ℤ)) :=
  let top_x := strip_x + d_px
  let top_y := strip_y
  let bottom_x := strip_x + d_px + w_px
  let bottom_y := strip_y
  let row_y := strip_y + d_px
  let left_x := strip_x
  let front_x := strip_x + d_px
  let right_x := strip_x + d_px + w_px
  let back_x := strip_x + d_px + w_px + d_px
  [("top", (top_x, top_y, top_x + w_px, top_y + d_px)),
    ("bottom", (bottom_x, bottom_y, bottom_x + w_px, bottom_y + d_px)),
    ("left", (left_x, row_y, left_x + d_px, row_y + h_px)),
    ("front", (front_x, row_y, front_x + w_px, row_y + h_px)),
    ("right", (right_x, row_y, right_x + d_px, row_y + h_px)),
    ("back", (back_x, row_y, back_x + w_px, row_y + h_px))]

/-- A box-UV strip for one cuboid (the packing-result fields x, y, packed
of the Python dataclass are returned by the packer here instead). -/
structure CuboidStrip where
  entity_id : String
  w_px : ℤ
  h_px : ℤ
  d_px : ℤ
  strip_w : ℤ
  strip_h : ℤ
deriving DecidableEq

/-- The strip built in generate_clay_atlas for one cuboid:
strip_w = 2*(w_px + d_px), strip_h = h_px + d_px. -/
def mkStrip (entity_id : String) (from_coords to_coords : Vec3Q)
    (texel_density : ℤ) : CuboidStrip :=
  let p := calculate_cuboid_pixels from_coords to_coords texel_density
  ⟨entity_id, p.1, p.2.1, p.2.2, 2 * (p.1 + p.2.2), p.2.1 + p.2.2⟩

/-- The for-loop over sorted strips in pack_strips. -/
def packAllStrips (W H : ℤ) :
    List CuboidStrip → List Shelf → List (CuboidStrip × ℤ × ℤ) →
    Option (List (CuboidStrip × ℤ × ℤ))
  | [], _, acc => some acc.reverse
  | st :: rest, shelves, acc =>
    match shelfPackOne W H shelves st.strip_w st.strip_h with
    | some r => packAllStrips W H rest r.1 ((st, r.2.1, r.2.2) :: acc)
    | none => none

/-- sorted(strips, key=(strip_h, strip_w), reverse=True). -/
def sortStrips (strips : List CuboidStrip) : List CuboidStrip :=
  strips.mergeSort fun a b =>
    decide (b.strip_h < a.strip_h ∨ (b.strip_h = a.strip_h ∧ b.strip_w ≤ a.strip_w))

/-- The doubling while-loop of pack_strips (max_size = 2048). -/
def stripsLoop (sorted_strips : List CuboidStrip) (atlas_size : ℤ) :
    Option (List (CuboidStrip × ℤ × ℤ) × ℤ) :=
  if _h : 0 < atlas_size ∧ atlas_size ≤ 2048 then
    match packAllStrips atlas_size atlas_size sorted_strips [] [] with
    | some placed => some (placed, atlas_size)
    | none => stripsLoop sorted_strips (atlas_size * 2)
  else none
termination_by (2049 - atlas_size).toNat
decreasing_by
  omega

/-- pack_strips with the default min_size=16: start from the smallest
power of two holding the tallest strip, floored at 16. -/
def pack_strips (strips : List CuboidStrip) :
    Option (List (CuboidStrip × ℤ × ℤ) × ℤ) :=
  if strips = [] then some ([], 16)
  else
    let sorted_strips := sortStrips strips
    let start := max 16 (next_power_of_2 (listMax (sorted_strips.map CuboidStrip.strip_h)))
    stripsLoop sorted_strips start

/-! ## Theorem for C9 -/

/-- The strip generate_clay_atlas builds for the unit cuboid
from=[0,0,0], to=[1,1,1] at texel density 16. -/
def cubeStrip : CuboidStrip := mkStrip "cube" (0, 0, 0) (1, 1, 1) 16

theorem cube_pixels_eval :
    calculate_cuboid_pixels (0, 0, 0) (1, 1, 1) 16 = (16, 16, 16) := by
  have h16 : pyRound ((|(1 : ℚ) - 0|) * ((16 : ℤ) : ℚ)) = 16 := by
    rw [show (|(1 : ℚ) - 0|) * ((16 : ℤ) : ℚ) = ((16 : ℤ) : ℚ) by norm_num]
    exact pyRound_intCast 16
  show (1 ⊔ pyRound ((|(1 : ℚ) - 0|) * ((16 : ℤ) : ℚ)),
      1 ⊔ pyRound ((|(1 : ℚ) - 0|) * ((16 : ℤ) : ℚ)),
      1 ⊔ pyRound ((|(1 : ℚ) - 0|) * ((16 : ℤ) : ℚ))) = (16, 16, 16)
  rw [h16]
  decide

theorem cubeStrip_eval : cubeStrip = ⟨"cube", 16, 16, 16, 64, 32⟩ := by
  unfold cubeStrip mkStrip
  rw [cube_pixels_eval]
  rfl

/-- C9: for the unit cuboid at texel density 16 the pixel dims are
16x16x16, the box-UV strip is 64x32 and holds all six faces inside its
bounds, and pack_strips packs the single strip into a 64x64 atlas at the
origin (32 is tried first and fails since the strip is 64 wide). -/
theorem simple_cube_scenario :
    calculate_cuboid_pixels (0, 0, 0) (1, 1, 1) 16 = (16, 16, 16) ∧
    cubeStrip.strip_w = 64 ∧ cubeStrip.strip_h = 32 ∧
    get_box_uv_face_rects 16 16 16 0 0 =
      [("top", (16, 0, 32, 16)), ("bottom", (32, 0, 48, 16)),
        ("left", (0, 16, 16, 32)), ("front", (16, 16, 32, 32)),
        ("right", (32, 16, 48, 32)), ("back", (48, 16, 64, 32))] ∧
    (∀ r ∈ get_box_uv_face_rects 16 16 16 0 0,
      0 ≤ r.2.1 ∧ 0 ≤ r.2.2.1 ∧ r.2.2.2.1 ≤ 64 ∧ r.2.2.2.2 ≤ 32) ∧
    pack_strips [cubeStrip] = some ([(cubeStrip, 0, 0)], 64) := by
  refine ⟨cube_pixels_eval, by rw [cubeStrip_eval], by rw [cubeStrip_eval],
    by decide, by decide, ?_⟩
  rw [cubeStrip_eval]
  show pack_strips [⟨"cube", 16, 16, 16, 64, 32⟩] =
    some ([((⟨"cube", 16, 16, 16, 64, 32⟩ : CuboidStrip), 0, 0)], 64)
  unfold pack_strips
  rw [if_neg (by decide : ¬([(⟨"cube", 16, 16, 16, 64, 32⟩ : CuboidStrip)] = []))]
  have hsort : sortStrips [(⟨"cube", 16, 16, 16, 64, 32⟩ : CuboidStrip)] =
      [⟨"cube", 16, 16, 16, 64, 32⟩] := by
    unfold sortStrips
    rw [List.mergeSort]
  rw [hsort]
  have hmap : listMax
      ([(⟨"cube", 16, 16, 16, 64, 32⟩ : CuboidStrip)].map CuboidStrip.strip_h) = 32 := rfl
  have hnp : next_power_of_2 (32 : ℤ) = 32 := by
    unfold next_power_of_2
    rw [if_neg (by norm_num : ¬ (32 : ℤ) ≤ 0),
      show ((32 : ℤ)).toNat = 32 from rfl,
      show Nat.clog 2 32 = 5 by norm_num [Nat.clog]]
    norm_num
  show stripsLoop [(⟨"cube", 16, 16, 16, 64, 32⟩ : CuboidStrip)]
    (16 ⊔ next_power_of_2 (listMax
      (List.map CuboidStrip.strip_h [(⟨"cube", 16, 16, 16, 64, 32⟩ : CuboidStrip)]))) =
    some ([((⟨"cube", 16, 16, 16, 64, 32⟩ : CuboidStrip), 0, 0)], 64)
  rw [hmap, hnp, show ((16 : ℤ) ⊔ 32) = 32 by omega]
  have h32 : packAllStrips 32 32 [(⟨"cube", 16, 16, 16, 64, 32⟩ : CuboidStrip)] [] [] =
      none := by decide
  have h64 : packAllStrips 64 64 [(⟨"cube", 16, 16, 16, 64, 32⟩ : CuboidStrip)] [] [] =
      some [((⟨"cube", 16, 16, 16, 64, 32⟩ : CuboidStrip), 0, 0)] := by decide
  rw [stripsLoop, dif_pos (by norm_num : (0 : ℤ) < 32 ∧ (32 : ℤ) ≤ 2048), h32]
  rw [show (32 : ℤ) * 2 = 64 by norm_num]
  rw [stripsLoop, dif_pos (by norm_num : (0 : ℤ) < 64 ∧ (64 : ℤ) ≤ 2048), h64]

/-! ## Shelf-packing correctness (C8)

Auxiliary predicates about the geometry of a packer state, and the
invariant maintained by shelfPackOne. -/

/-- The set of pixels covered by a placed rectangle. -/
def region (r : PlacedRect) : Set (ℤ × ℤ) :=
  {p | r.x ≤ p.1 ∧ p.1 < r.x + r.width ∧ r.y ≤ p.2 ∧ p.2 < r.y + r.height}

/-- Two shelves occupy disjoint (or touching) horizontal bands. -/
def bandDisjoint (a b : Shelf) : Prop :=
  a.y + a.height ≤ b.y ∨ b.y + b.height ≤ a.y

def sumHeights (l : List Shelf) : ℤ :=
  (l.map Shelf.height).sum

/-- Well-formedness of a packer state inside a W x H atlas. -/
def shelvesInv (W H : ℤ) (l : List Shelf) : Prop :=
  (∀ s ∈ l, 0 ≤ s.y ∧ 0 ≤ s.height ∧ s.y + s.height ≤ H ∧ 0 ≤ s.x ∧ s.x ≤ W) ∧
  List.Pairwise bandDisjoint l ∧
  (∀ s ∈ l, s.y + s.height ≤ sumHeights l)

/-- A placed rectangle sits inside one shelf, left of its fill cursor. -/
def placedIn (l : List Shelf) (r : PlacedRect) : Prop :=
  ∃ s ∈ l, r.y = s.y ∧ r.y + r.height ≤ s.y + s.height ∧
    0 ≤ r.x ∧ r.x + r.width ≤ s.x

theorem bandDisjoint_symm : Symmetric bandDisjoint := by
  intro a b h
  rcases h with h | h
  · exact Or.inr h
  · exact Or.inl h

theorem sumHeights_nonneg (l : List Shelf)
    (h : ∀ s ∈ l, 0 ≤ s.height) : 0 ≤ sumHeights l := by
  induction l with
  | nil => simp [sumHeights]
  | cons s rest ih =>
    have hs := h s (by simp)
    have hr := ih fun t ht => h t (by simp [ht])
    simp only [sumHeights, List.map_cons, List.sum_cons]
    have : 0 ≤ (rest.map Shelf.height).sum := hr
    linarith

/-- Decomposition of a successful tryShelves call: the state splits at the
first fitting shelf, whose cursor advances by the width. -/
theorem tryShelves_spec (W w h : ℤ) :
    ∀ (l l2 : List Shelf) (x y : ℤ),
      tryShelves W w h l = some (l2, x, y) →
      ∃ (pre suf : List Shelf) (s : Shelf),
        l = pre ++ s :: suf ∧
        l2 = pre ++ { s with x := s.x + w } :: suf ∧
        x = s.x ∧ y = s.y ∧ w ≤ W - s.x ∧ h ≤ s.height := by
  intro l
  induction l with
  | nil => intro l2 x y hcall; simp [tryShelves] at hcall
  | cons s rest ih =>
    intro l2 x y hcall
    by_cases hfit : w ≤ W - s.x ∧ h ≤ s.height
    · rw [tryShelves, if_pos hfit] at hcall
      have heq := Option.some.inj hcall
      rw [Prod.mk.injEq, Prod.mk.injEq] at heq
      obtain ⟨h1, h2, h3⟩ := heq
      subst h1 h2 h3
      exact ⟨[], rest, s, by simp, by simp, rfl, rfl, hfit.1, hfit.2⟩
    · rw [tryShelves, if_neg hfit] at hcall
      cases hrec : tryShelves W w h rest with
      | none => rw [hrec] at hcall; simp at hcall
      | some r =>
        rw [hrec] at hcall
        simp only [Option.map_some'] at hcall
        have heq := Option.some.inj hcall
        rw [Prod.mk.injEq, Prod.mk.injEq] at heq
        obtain ⟨h1, h2, h3⟩ := heq
        subst h1 h2 h3
        obtain ⟨pre, suf, t, hl, hl2, hx, hy, hw2, hh2⟩ :=
          ih r.1 r.2.1 r.2.2 (by rw [hrec])
        refine ⟨s :: pre, suf, t, by rw [hl]; rfl, ?_, hx, hy, hw2, hh2⟩
        rw [List.cons_append, ← hl2]

theorem region_disjoint_of_x (a b : PlacedRect)
    (hab : a.x + a.width ≤ b.x ∨ b.x + b.width ≤ a.x) :
    Disjoint (region a) (region b) := by
  rw [Set.disjoint_left]
  intro p hpa hpb
  obtain ⟨ha1, ha2, ha3, ha4⟩ := hpa
  obtain ⟨hb1, hb2, hb3, hb4⟩ := hpb
  rcases hab with hab | hab <;> omega

theorem region_disjoint_of_y (a b : PlacedRect)
    (hab : a.y + a.height ≤ b.y ∨ b.y + b.height ≤ a.y) :
    Disjoint (region a) (region b) := by
  rw [Set.disjoint_left]
  intro p hpa hpb
  obtain ⟨ha1, ha2, ha3, ha4⟩ := hpa
  obtain ⟨hb1, hb2, hb3, hb4⟩ := hpb
  rcases hab with hab | hab <;> omega

theorem sumHeights_append (l1 l2 : List Shelf) :
    sumHeights (l1 ++ l2) = sumHeights l1 + sumHeights l2 := by
  simp [sumHeights]

theorem sumHeights_bump (pre suf : List Shelf) (s : Shelf) (v : ℤ) :
    sumHeights (pre ++ { s with x := v } :: suf) = sumHeights (pre ++ s :: suf) := by
  simp [sumHeights]

/-- Advancing one shelf cursor within the atlas width keeps the state
well-formed. -/
theorem shelvesInv_bump (W H w : ℤ) (pre suf : List Shelf) (s : Shelf)
    (hw : 0 ≤ w) (hwfit : w ≤ W - s.x)
    (hinv : shelvesInv W H (pre ++ s :: suf)) :
    shelvesInv W H (pre ++ { s with x := s.x + w } :: suf) := by
  obtain ⟨hok, hpw, hsum⟩ := hinv
  have hsx : 0 ≤ s.x ∧ s.x ≤ W := by
    have := hok s (by simp)
    exact ⟨this.2.2.2.1, this.2.2.2.2⟩
  refine ⟨?_, ?_, ?_⟩
  · intro t ht
    rcases List.mem_append.mp ht with ht | ht
    · exact hok t (by simp [ht])
    · rcases List.mem_cons.mp ht with rfl | ht
      · have hs := hok s (by simp)
        refine ⟨hs.1, hs.2.1, hs.2.2.1, ?_, ?_⟩
        · show 0 ≤ s.x + w
          linarith [hsx.1]
        · show s.x + w ≤ W
          linarith
      · exact hok t (by simp [ht])
  · rw [List.pairwise_append] at hpw ⊢
    obtain ⟨h1, h2, h3⟩ := hpw
    rw [List.pairwise_cons] at h2 ⊢
    refine ⟨h1, ⟨?_, h2.2⟩, ?_⟩
    · intro b hb
      exact h2.1 b hb
    · intro a ha b hb
      rcases List.mem_cons.mp hb with rfl | hb
      · exact h3 a ha s (by simp)
      · exact h3 a ha b (by simp [hb])
  · intro t ht
    rw [sumHeights_bump]
    rcases List.mem_append.mp ht with ht | ht
    · exact hsum t (by simp [ht])
    · rcases List.mem_cons.mp ht with rfl | ht
      · exact hsum s (by simp)
      · exact hsum t (by simp [ht])

/-- Opening a new shelf at the bottom of the used region keeps the state
well-formed. -/
theorem shelvesInv_append (W H w h : ℤ) (l : List Shelf)
    (hw : 0 ≤ w) (hh : 0 ≤ h) (hwW : w ≤ W)
    (hfits : sumHeights l + h ≤ H)
    (hinv : shelvesInv W H l) :
    shelvesInv W H (l ++ [⟨sumHeights l, h, w⟩]) := by
  obtain ⟨hok, hpw, hsum⟩ := hinv
  have hnn : 0 ≤ sumHeights l :=
    sumHeights_nonneg l fun t ht => (hok t ht).2.1
  refine ⟨?_, ?_, ?_⟩
  · intro t ht
    rcases List.mem_append.mp ht with ht | ht
    · exact hok t ht
    · rcases List.mem_singleton.mp ht with rfl
      exact ⟨hnn, hh, hfits, hw, hwW⟩
  · rw [List.pairwise_append]
    refine ⟨hpw, by simp, ?_⟩
    intro a ha b hb
    rcases List.mem_singleton.mp hb with rfl
    exact Or.inl (hsum a ha)
  · intro t ht
    rw [sumHeights_append]
    rcases List.mem_append.mp ht with ht | ht
    · have := hsum t ht
      have : sumHeights [(⟨sumHeights l, h, w⟩ : Shelf)] = h := by
        simp [sumHeights]
      linarith [hsum t ht, hh]
    · rcases List.mem_singleton.mp ht with rfl
      show sumHeights l + h ≤ sumHeights l + sumHeights [(⟨sumHeights l, h, w⟩ : Shelf)]
      have : sumHeights [(⟨sumHeights l, h, w⟩ : Shelf)] = h := by
        simp [sumHeights]
      linarith

/-- The full step contract of shelfPackOne: a successful pack keeps the
state well-formed, keeps every previously placed rectangle placed, places
the new rectangle inside the new state, and the new rectangle is disjoint
from every previously placed one. -/
theorem shelfPackOne_step (W H : ℤ) (shelves : List Shelf) (w h : ℤ)
    (hw : 0 ≤ w) (hh : 0 ≤ h) (hinv : shelvesInv W H shelves)
    (l2 : List Shelf) (x y : ℤ)
    (hstep : shelfPackOne W H shelves w h = some (l2, x, y)) :
    shelvesInv W H l2 ∧
    (∀ r, placedIn shelves r → placedIn l2 r) ∧
    (∀ id : ℕ, placedIn l2 ⟨id, x, y, w, h⟩) ∧
    (∀ id : ℕ, ∀ r, placedIn shelves r →
      Disjoint (region ⟨id, x, y, w, h⟩) (region r)) := by
  unfold shelfPackOne at hstep
  cases htry : tryShelves W w h shelves with
  | some res =>
    rw [htry] at hstep
    have hstep2 : some res = some (l2, x, y) := hstep
    have htry2 : tryShelves W w h shelves = some (l2, x, y) := by
      rw [htry, Option.some.inj hstep2]
    obtain ⟨pre, suf, s, hl, hl2, hx, hy, hwfit, hhfit⟩ :=
      tryShelves_spec W w h shelves l2 x y htry2
    subst hl
    have hsmem := hinv.1 s (by simp)
    refine ⟨?_, ?_, ?_, ?_⟩
    · rw [hl2]
      exact shelvesInv_bump W H w pre suf s hw hwfit hinv
    · intro r hr
      obtain ⟨t, htmem, h1, h2, h3, h4⟩ := hr
      rw [hl2]
      rcases List.mem_append.mp htmem with htm | htm
      · exact ⟨t, by simp [htm], h1, h2, h3, h4⟩
      · rcases List.mem_cons.mp htm with rfl | htm
        · refine ⟨{ t with x := t.x + w }, by simp, h1, h2, h3, by
            show r.x + r.width ≤ t.x + w
            linarith⟩
        · exact ⟨t, by simp [htm], h1, h2, h3, h4⟩
    · intro id
      rw [hl2, hx, hy]
      refine ⟨{ s with x := s.x + w }, by simp, rfl, ?_, hsmem.2.2.2.1, le_refl _⟩
      show s.y + h ≤ s.y + s.height
      linarith
    · intro id r hr
      obtain ⟨t, htmem, h1, h2, h3, h4⟩ := hr
      rcases List.mem_append.mp htmem with htm | htm
      · have hband : bandDisjoint t s := by
          have hpw := hinv.2.1
          rw [List.pairwise_append] at hpw
          exact hpw.2.2 t htm s (by simp)
        apply region_disjoint_of_y
        rw [hx, hy]
        show s.y + h ≤ r.y ∨ r.y + r.height ≤ s.y
        rcases hband with hb | hb
        · right
          linarith [h2, hb, h1]
        · left
          linarith [hhfit, hb, h1]
      · rcases List.mem_cons.mp htm with rfl | htm
        · apply region_disjoint_of_x
          rw [hx]
          right
          exact h4
        · have hband : bandDisjoint s t := by
            have hpw := hinv.2.1
            rw [List.pairwise_append, List.pairwise_cons] at hpw
            exact hpw.2.1.1 t htm
          apply region_disjoint_of_y
          rw [hx, hy]
          show s.y + h ≤ r.y ∨ r.y + r.height ≤ s.y
          rcases hband with hb | hb
          · left
            linarith [hhfit, hb, h1]
          · right
            linarith [h2, hb, h1]
  | none =>
    rw [htry] at hstep
    have hstep2 : (if sumHeights shelves + h > H ∨ w > W then none
        else some (shelves ++ [(⟨sumHeights shelves, h, w⟩ : Shelf)], 0,
          sumHeights shelves)) = some (l2, x, y) := hstep
    by_cases hguard : sumHeights shelves + h > H ∨ w > W
    · rw [if_pos hguard] at hstep2
      simp at hstep2
    · rw [if_neg hguard] at hstep2
      push_neg at hguard
      have heq := Option.some.inj hstep2
      rw [Prod.mk.injEq, Prod.mk.injEq] at heq
      obtain ⟨he1, he2, he3⟩ := heq
      have hinv2 := shelvesInv_append W H w h shelves hw hh hguard.2
        hguard.1 hinv
      refine ⟨?_, ?_, ?_, ?_⟩
      · rw [← he1]
        exact hinv2
      · intro r hr
        obtain ⟨t, htmem, hcond⟩ := hr
        exact ⟨t, by rw [← he1]; simp [htmem], hcond⟩
      · intro id
        rw [← he1, ← he2, ← he3]
        refine ⟨⟨sumHeights shelves, h, w⟩, by simp, rfl, le_refl _, le_refl _, ?_⟩
        show 0 + w ≤ w
        linarith
      · intro id r hr
        obtain ⟨t, htmem, h1, h2, h3, h4⟩ := hr
        apply region_disjoint_of_y
        rw [← he2, ← he3]
        right
        show r.y + r.height ≤ sumHeights shelves
        have := hinv.2.2 t htmem
        linarith [h2, h1]

/-- Placed rectangles of a well-formed state lie inside the atlas. -/
theorem placedIn_bounds (W H : ℤ) (shelves : List Shelf) (r : PlacedRect)
    (hinv : shelvesInv W H shelves) (hp : placedIn shelves r) :
    0 ≤ r.x ∧ r.x + r.width ≤ W ∧ 0 ≤ r.y ∧ r.y + r.height ≤ H := by
  obtain ⟨s, hs, h1, h2, h3, h4⟩ := hp
  have hok := hinv.1 s hs
  exact ⟨h3, by linarith [hok.2.2.2.2], by linarith [hok.1, h1.ge, h1.le],
    by linarith [hok.2.2.1]⟩

/-- Running the packing fold from a valid state yields pairwise-disjoint
placements inside a final valid state. -/
theorem packAllRects_correct (W H : ℤ) :
    ∀ (todo : List (ℤ × ℤ × ℕ)) (shelves : List Shelf)
      (acc out : List PlacedRect),
      (∀ r ∈ todo, 0 ≤ r.1 ∧ 0 ≤ r.2.1) →
      shelvesInv W H shelves →
      (∀ r ∈ acc, placedIn shelves r) →
      List.Pairwise (fun a b => Disjoint (region a) (region b)) acc →
      packAllRects W H todo shelves acc = some out →
      ∃ shelves2, shelvesInv W H shelves2 ∧
        (∀ r ∈ out, placedIn shelves2 r) ∧
        List.Pairwise (fun a b => Disjoint (region a) (region b)) out := by
  intro todo
  induction todo with
  | nil =>
    intro shelves acc out hdims hinv hplaced hpw hcall
    have hcall2 : some acc.reverse = some out := hcall
    refine ⟨shelves, hinv, ?_, ?_⟩
    · intro r hr
      apply hplaced
      rw [← Option.some.inj hcall2] at hr
      exact List.mem_reverse.mp hr
    · rw [← Option.some.inj hcall2]
      rw [List.pairwise_reverse]
      exact hpw.imp fun hab => hab.symm
  | cons rect rest ih =>
    intro shelves acc out hdims hinv hplaced hpw hcall
    obtain ⟨w, h, rid⟩ := rect
    have hcall2 : (match shelfPackOne W H shelves w h with
        | some r => packAllRects W H rest r.1
            (⟨rid, r.2.1, r.2.2, w, h⟩ :: acc)
        | none => none) = some out := hcall
    cases hstep : shelfPackOne W H shelves w h with
    | none =>
      rw [hstep] at hcall2
      simp at hcall2
    | some r =>
      rw [hstep] at hcall2
      have hwh := hdims (w, h, rid) (by simp)
      obtain ⟨hinv2, hmono, hplace_new, hdisj⟩ :=
        shelfPackOne_step W H shelves w h hwh.1 hwh.2 hinv r.1 r.2.1 r.2.2
          (by rw [hstep])
      refine ih r.1 (⟨rid, r.2.1, r.2.2, w, h⟩ :: acc) out
        (fun t ht => hdims t (by simp [ht])) hinv2 ?_ ?_ hcall2
      · intro t ht
        rcases List.mem_cons.mp ht with rfl | ht
        · exact hplace_new rid
        · exact hmono t (hplaced t ht)
      · rw [List.pairwise_cons]
        exact ⟨fun t ht => hdisj rid t (hplaced t ht), hpw⟩

theorem tryShelves_none_of_oversize (W H w h : ℤ) :
    ∀ shelves : List Shelf,
      (∀ s ∈ shelves, 0 ≤ s.y ∧ 0 ≤ s.height ∧ s.y + s.height ≤ H ∧
        0 ≤ s.x ∧ s.x ≤ W) →
      (W < w ∨ H < h) →
      tryShelves W w h shelves = none := by
  intro shelves
  induction shelves with
  | nil => intro _ _; rfl
  | cons s rest ih =>
    intro hok hover
    have hs := hok s (by simp)
    have hfit : ¬(w ≤ W - s.x ∧ h ≤ s.height) := by
      rcases hover with hov | hov
      · intro ⟨h1, _⟩
        linarith [hs.2.2.2.1]
      · intro ⟨_, h2⟩
        linarith [hs.1, hs.2.2.1]
    rw [tryShelves, if_neg hfit, ih (fun t ht => hok t (by simp [ht])) hover]
    rfl

theorem shelfPackOne_none_of_oversize (W H w h : ℤ) (shelves : List Shelf)
    (hok : ∀ s ∈ shelves, 0 ≤ s.y ∧ 0 ≤ s.height ∧ s.y + s.height ≤ H ∧
      0 ≤ s.x ∧ s.x ≤ W)
    (hover : W < w ∨ H < h) :
    shelfPackOne W H shelves w h = none := by
  unfold shelfPackOne
  rw [tryShelves_none_of_oversize W H w h shelves hok hover]
  have hnn : 0 ≤ sumHeights shelves :=
    sumHeights_nonneg shelves fun t ht => (hok t ht).2.1
  have hguard : sumHeights shelves + h > H ∨ w > W := by
    rcases hover with hov | hov
    · right
      exact hov
    · left
      linarith
  show (if sumHeights shelves + h > H ∨ w > W then none
    else some (shelves ++ [(⟨sumHeights shelves, h, w⟩ : Shelf)], 0,
      sumHeights shelves)) = none
  rw [if_pos hguard]

theorem packAllRects_none_of_oversize (W H : ℤ) :
    ∀ (todo : List (ℤ × ℤ × ℕ)) (shelves : List Shelf)
      (acc : List PlacedRect),
      shelvesInv W H shelves →
      (∀ r ∈ todo, 0 ≤ r.1 ∧ 0 ≤ r.2.1) →
      (∃ r ∈ todo, W < r.1 ∨ H < r.2.1) →
      packAllRects W H todo shelves acc = none := by
  intro todo
  induction todo with
  | nil =>
    intro shelves acc _ _ hex
    simp at hex
  | cons rect rest ih =>
    intro shelves acc hinv hdims hex
    obtain ⟨w, h, rid⟩ := rect
    show (match shelfPackOne W H shelves w h with
      | some r => packAllRects W H rest r.1
          (⟨rid, r.2.1, r.2.2, w, h⟩ :: acc)
      | none => none) = none
    obtain ⟨rbad, hrbadmem, hrbad⟩ := hex
    rcases List.mem_cons.mp hrbadmem with rfl | hrbadmem
    · rw [shelfPackOne_none_of_oversize W H w h shelves hinv.1 hrbad]
    · cases hstep : shelfPackOne W H shelves w h with
      | none => rfl
      | some r =>
        have hwh := hdims (w, h, rid) (by simp)
        obtain ⟨hinv2, _, _, _⟩ :=
          shelfPackOne_step W H shelves w h hwh.1 hwh.2 hinv r.1 r.2.1 r.2.2
            (by rw [hstep])
        exact ih r.1 (⟨rid, r.2.1, r.2.2, w, h⟩ :: acc) hinv2
          (fun t ht => hdims t (by simp [ht])) ⟨rbad, hrbadmem, hrbad⟩

/-- What a successful packLoop run implies: the returned size is reached
from the start size by doubling, the shelf pass succeeds there, and it
failed at every earlier size in the doubling sequence. -/
theorem packLoop_spec (sorted : List (ℤ × ℤ × ℕ)) :
    ∀ (size : ℤ) (placed : List PlacedRect) (S S2 : ℤ),
      packLoop sorted size = some (placed, S, S2) →
      S2 = S ∧ size ≤ S ∧ S ≤ 8192 ∧ (∃ k : ℕ, S = size * 2 ^ k) ∧
      packAllRects S S sorted [] [] = some placed ∧
      (∀ T : ℤ, (∃ j : ℕ, T = size * 2 ^ j) → T < S →
        packAllRects T T sorted [] [] = none) := by
  refine packLoop.induct sorted
    (fun size => ∀ (placed : List PlacedRect) (S S2 : ℤ),
      packLoop sorted size = some (placed, S, S2) →
      S2 = S ∧ size ≤ S ∧ S ≤ 8192 ∧ (∃ k : ℕ, S = size * 2 ^ k) ∧
      packAllRects S S sorted [] [] = some placed ∧
      (∀ T : ℤ, (∃ j : ℕ, T = size * 2 ^ j) → T < S →
        packAllRects T T sorted [] [] = none)) ?_ ?_ ?_
  · intro size hguard placed0 hpack placed S S2 hcall
    rw [packLoop, dif_pos hguard, hpack] at hcall
    have heq := Option.some.inj hcall
    rw [Prod.mk.injEq, Prod.mk.injEq] at heq
    obtain ⟨he1, he2, he3⟩ := heq
    subst he1 he2 he3
    refine ⟨rfl, le_refl _, hguard.2, ⟨0, by ring⟩, hpack, ?_⟩
    intro T hTex hTS
    exfalso
    obtain ⟨j, hTj⟩ := hTex
    have h2j : (1 : ℤ) ≤ 2 ^ j := by
      have h0 : (0 : ℤ) < 2 ^ j := pow_pos (by norm_num) j
      omega
    have hsz : size ≤ T := by
      rw [hTj]
      nlinarith [hguard.1]
    linarith
  · intro size hguard hnone ihm placed S S2 hcall
    rw [packLoop, dif_pos hguard, hnone] at hcall
    obtain ⟨ih1, ih2, ih3, ⟨k, ihk⟩, ih5, ih6⟩ := ihm placed S S2 hcall
    refine ⟨ih1, by linarith [hguard.1], ih3, ⟨k + 1, by rw [ihk]; ring⟩, ih5, ?_⟩
    intro T hTex hTS
    obtain ⟨j, hTj⟩ := hTex
    cases j with
    | zero =>
      rw [hTj]
      simp only [pow_zero, mul_one]
      exact hnone
    | succ j2 =>
      refine ih6 T ⟨j2, ?_⟩ hTS
      rw [hTj]
      ring
  · intro size hguard placed S S2 hcall
    rw [packLoop, dif_neg hguard] at hcall
    simp at hcall

theorem foldl_max_init (xs : List ℤ) : ∀ a : ℤ, a ≤ xs.foldl max a := by
  induction xs with
  | nil => intro a; exact le_refl a
  | cons y ys ih =>
    intro a
    calc a ≤ max a y := le_max_left a y
      _ ≤ ys.foldl max (max a y) := ih (max a y)

theorem foldl_max_le (xs : List ℤ) :
    ∀ (a x : ℤ), x ∈ xs → x ≤ xs.foldl max a := by
  induction xs with
  | nil => intro a x hx; simp at hx
  | cons y ys ih =>
    intro a x hx
    rcases List.mem_cons.mp hx with rfl | hx
    · calc x ≤ max a x := le_max_right a x
        _ ≤ ys.foldl max (max a x) := foldl_max_init ys _
    · exact ih (max a y) x hx

theorem foldl_max_cases (xs : List ℤ) :
    ∀ a : ℤ, xs.foldl max a = a ∨ xs.foldl max a ∈ xs := by
  induction xs with
  | nil => intro a; exact Or.inl rfl
  | cons y ys ih =>
    intro a
    rcases ih (max a y) with h | h
    · rcases max_choice a y with hm | hm
      · left
        rw [List.foldl_cons, h, hm]
      · right
        rw [List.foldl_cons, h, hm]
        simp
    · right
      rw [List.foldl_cons]
      exact List.mem_cons_of_mem y h

theorem le_listMax (l : List ℤ) (x : ℤ) (hx : x ∈ l) : x ≤ listMax l := by
  cases l with
  | nil => simp at hx
  | cons y ys =>
    rcases List.mem_cons.mp hx with rfl | hx
    · exact foldl_max_init ys x
    · exact foldl_max_le ys y x hx

theorem listMax_mem (l : List ℤ) (hl : l ≠ []) : listMax l ∈ l := by
  cases l with
  | nil => exact absurd rfl hl
  | cons y ys =>
    rcases foldl_max_cases ys y with h | h
    · rw [listMax, h]
      simp
    · rw [listMax]
      exact List.mem_cons_of_mem y h

theorem next_power_of_2_is_pow2 (n : ℤ) :
    ∃ k : ℕ, next_power_of_2 n = 2 ^ k := by
  unfold next_power_of_2
  split_ifs
  · exact ⟨0, by norm_num⟩
  · exact ⟨Nat.clog 2 n.toNat, rfl⟩

theorem le_next_power_of_2 (n : ℤ) : n ≤ next_power_of_2 n := by
  unfold next_power_of_2
  split_ifs with h
  · linarith
  · push_neg at h
    have h1 : n.toNat ≤ 2 ^ Nat.clog 2 n.toNat := Nat.le_pow_clog (by norm_num) _
    have h2 : (n.toNat : ℤ) = n := Int.toNat_of_nonneg (by linarith)
    calc n = (n.toNat : ℤ) := h2.symm
      _ ≤ ((2 ^ Nat.clog 2 n.toNat : ℕ) : ℤ) := by exact_mod_cast h1
      _ = 2 ^ Nat.clog 2 n.toNat := by push_cast; rfl

theorem pow2_lt_next_power_of_2 (n : ℤ) (k : ℕ) (hn : 0 < n)
    (hlt : (2 : ℤ) ^ k < next_power_of_2 n) : (2 : ℤ) ^ k < n := by
  unfold next_power_of_2 at hlt
  rw [if_neg (by linarith : ¬ n ≤ 0)] at hlt
  have hk : k < Nat.clog 2 n.toNat :=
    (pow_lt_pow_iff_right₀ (by norm_num : (1 : ℤ) < 2)).mp hlt
  have h2 : (2 : ℕ) ^ k < n.toNat := (Nat.pow_lt_iff_lt_clog (by norm_num)).mpr hk
  have h3 : (n.toNat : ℤ) = n := Int.toNat_of_nonneg (by linarith)
  calc (2 : ℤ) ^ k = ((2 ^ k : ℕ) : ℤ) := by push_cast; rfl
    _ < (n.toNat : ℤ) := by exact_mod_cast h2
    _ = n := h3

theorem ceilSqrt_sq_ge (a : ℤ) (ha : 0 ≤ a) : a ≤ ceilSqrt a * ceilSqrt a := by
  simp only [ceilSqrt]
  have h3 : (a.toNat : ℤ) = a := Int.toNat_of_nonneg ha
  split_ifs with hcase
  · show a ≤ (Nat.sqrt a.toNat : ℤ) * (Nat.sqrt a.toNat : ℤ)
    rw [hcase, h3]
  · show a ≤ ((Nat.sqrt a.toNat : ℤ) + 1) * ((Nat.sqrt a.toNat : ℤ) + 1)
    have h1 : a.toNat < (Nat.sqrt a.toNat).succ ^ 2 := Nat.lt_succ_sqrt' a.toNat
    have h2 : (a.toNat : ℤ) < ((Nat.sqrt a.toNat : ℤ) + 1) ^ 2 := by
      exact_mod_cast h1
    rw [h3] at h2
    nlinarith [h2]

theorem lt_ceilSqrt_sq (a T : ℤ) (ha : 0 ≤ a) (hT : 0 ≤ T)
    (h : T < ceilSqrt a) : T * T < a := by
  simp only [ceilSqrt] at h
  have h3 : (a.toNat : ℤ) = a := Int.toNat_of_nonneg ha
  have hsq : (Nat.sqrt a.toNat : ℤ) * (Nat.sqrt a.toNat : ℤ) ≤ a := by
    have h1 := Nat.sqrt_le' a.toNat
    rw [pow_two] at h1
    calc (Nat.sqrt a.toNat : ℤ) * (Nat.sqrt a.toNat : ℤ)
        = ((Nat.sqrt a.toNat * Nat.sqrt a.toNat : ℕ) : ℤ) := by push_cast; rfl
      _ ≤ (a.toNat : ℤ) := by exact_mod_cast h1
      _ = a := h3
  split_ifs at h with hcase
  · have heq : (Nat.sqrt a.toNat : ℤ) * (Nat.sqrt a.toNat : ℤ) = a := by
      rw [hcase, h3]
    nlinarith [h, hT]
  · have hTle : T ≤ (Nat.sqrt a.toNat : ℤ) := by linarith
    have hne : (Nat.sqrt a.toNat : ℤ) * (Nat.sqrt a.toNat : ℤ) ≠ a := by
      intro hcontra
      apply hcase
      rw [hcontra, h3]
    have hlt : (Nat.sqrt a.toNat : ℤ) * (Nat.sqrt a.toNat : ℤ) < a :=
      lt_of_le_of_ne hsq hne
    nlinarith [hTle, hT]

theorem shelvesInv_nil (W H : ℤ) : shelvesInv W H [] := by
  refine ⟨by simp, by simp, by simp⟩

/-- C8: for a non-empty list of rectangles with nonnegative sides and
total area A, pack_rectangles returns a square power-of-two atlas of side
S with 16 <= S and A <= S*S; the shelf pass succeeds at S and fails at
every smaller power of two that is >= 16 and >= sqrt(A); and the returned
placements are pairwise disjoint and inside the atlas. -/
theorem pack_rectangles_correct (rects : List (ℤ × ℤ × ℕ))
    (hne : rects ≠ [])
    (hdims : ∀ r ∈ rects, 0 ≤ r.1 ∧ 0 ≤ r.2.1)
    (placed : List PlacedRect) (S S2 : ℤ)
    (hres : pack_rectangles rects = some (placed, S, S2)) :
    S2 = S ∧ (∃ k : ℕ, S = 2 ^ k) ∧ 16 ≤ S ∧
    (rects.map fun r => r.1 * r.2.1).sum ≤ S * S ∧
    packAllRects S S (sortRects rects) [] [] = some placed ∧
    (∀ T : ℤ, (∃ k : ℕ, T = 2 ^ k) → 16 ≤ T →
      (rects.map fun r => r.1 * r.2.1).sum ≤ T * T → T < S →
      packAllRects T T (sortRects rects) [] [] = none) ∧
    List.Pairwise (fun a b => Disjoint (region a) (region b)) placed ∧
    (∀ r ∈ placed, 0 ≤ r.x ∧ r.x + r.width ≤ S ∧ 0 ≤ r.y ∧ r.y + r.height ≤ S) := by
  unfold pack_rectangles at hres
  rw [if_neg hne] at hres
  have hres2 : packLoop (sortRects rects)
      (max (max 16 (next_power_of_2 (ceilSqrt ((rects.map fun r => r.1 * r.2.1).sum))))
        (next_power_of_2 (max (listMax (rects.map fun r => r.1))
          (listMax (rects.map fun r => r.2.1))))) = some (placed, S, S2) := hres
  set A := (rects.map fun r => r.1 * r.2.1).sum with hA
  set maxw := listMax (rects.map fun r => r.1) with hmaxw
  set maxh := listMax (rects.map fun r => r.2.1) with hmaxh
  set start := max (max 16 (next_power_of_2 (ceilSqrt A)))
    (next_power_of_2 (max maxw maxh)) with hstart
  obtain ⟨hS2, hstartS, hS8192, ⟨k, hSk⟩, hpackS, hmin⟩ :=
    packLoop_spec (sortRects rects) start placed S S2 hres2
  have hA0 : 0 ≤ A := by
    rw [hA]
    apply List.sum_nonneg
    intro x hx
    obtain ⟨r, hr, rfl⟩ := List.mem_map.mp hx
    exact mul_nonneg (hdims r hr).1 (hdims r hr).2
  have hdims2 : ∀ r ∈ sortRects rects, 0 ≤ r.1 ∧ 0 ≤ r.2.1 := by
    intro r hr
    simp only [sortRects] at hr
    exact hdims r (List.mem_mergeSort.mp hr)
  have h16start : (16 : ℤ) ≤ start := by
    rw [hstart]
    exact le_trans (le_max_left 16 _) (le_max_left _ _)
  have hstartpow : ∃ m : ℕ, start = 2 ^ m := by
    obtain ⟨a, ha⟩ := next_power_of_2_is_pow2 (ceilSqrt A)
    obtain ⟨b, hb⟩ := next_power_of_2_is_pow2 (max maxw maxh)
    rw [hstart, ha, hb]
    have hmono : ∀ i j : ℕ, max ((2 : ℤ) ^ i) ((2 : ℤ) ^ j) = 2 ^ max i j := by
      intro i j
      rcases le_total i j with hij | hij
      · rw [max_eq_right (pow_le_pow_right₀ (by norm_num) hij), max_eq_right hij]
      · rw [max_eq_left (pow_le_pow_right₀ (by norm_num) hij), max_eq_left hij]
    refine ⟨max (max 4 a) b, ?_⟩
    rw [show (16 : ℤ) = 2 ^ (4 : ℕ) by norm_num, hmono, hmono]
  obtain ⟨m, hm⟩ := hstartpow
  have hS0 : (0 : ℤ) ≤ S := by linarith
  have hcs0 : 0 ≤ ceilSqrt A := by
    simp only [ceilSqrt]
    split_ifs <;> positivity
  have hcs : ceilSqrt A ≤ S := by
    have h1 : ceilSqrt A ≤ next_power_of_2 (ceilSqrt A) := le_next_power_of_2 _
    have h2 : next_power_of_2 (ceilSqrt A) ≤ start := by
      rw [hstart]
      exact le_trans (le_max_right 16 _) (le_max_left _ _)
    linarith
  have hASS : A ≤ S * S := by
    have h1 := ceilSqrt_sq_ge A hA0
    nlinarith [h1, hcs, hcs0]
  refine ⟨hS2, ⟨m + k, by rw [hSk, hm, pow_add]⟩, by linarith, hASS, hpackS,
    ?_, ?_, ?_⟩
  · intro T hTpow hT16 hTA hTS
    obtain ⟨t, hTt⟩ := hTpow
    by_cases hcase : start ≤ T
    · have hmt : m ≤ t := by
        by_contra hc
        push_neg at hc
        have hlt : T < start := by
          rw [hTt, hm]
          exact pow_lt_pow_right₀ (by norm_num) hc
        linarith
      refine hmin T ⟨t - m, ?_⟩ hTS
      rw [hTt, hm, ← pow_add]
      congr 1
      omega
    · push_neg at hcase
      have hTnot : T < max 16 (next_power_of_2 (ceilSqrt A)) ∨
          T < next_power_of_2 (max maxw maxh) := by
        by_contra hc
        push_neg at hc
        have hle : start ≤ T := by
          rw [hstart]
          exact max_le hc.1 hc.2
        linarith
      rcases hTnot with hT1 | hT2
      · exfalso
        have hTnp : T < next_power_of_2 (ceilSqrt A) := by
          rcases lt_max_iff.mp hT1 with hx | hx
          · linarith
          · exact hx
        have hcpos : 0 < ceilSqrt A := by
          by_contra hcp
          push_neg at hcp
          have hone : next_power_of_2 (ceilSqrt A) = 1 := by
            unfold next_power_of_2
            rw [if_pos hcp]
          rw [hone] at hTnp
          linarith
        have hTlt : T < ceilSqrt A := by
          rw [hTt] at hTnp ⊢
          exact pow2_lt_next_power_of_2 _ t hcpos hTnp
        have hTT := lt_ceilSqrt_sq A T hA0 (by linarith) hTlt
        linarith
      · have hdpos : 0 < max maxw maxh := by
          by_contra hcp
          push_neg at hcp
          have hone : next_power_of_2 (max maxw maxh) = 1 := by
            unfold next_power_of_2
            rw [if_pos hcp]
          rw [hone] at hT2
          linarith
        have hTd : T < max maxw maxh := by
          rw [hTt] at hT2 ⊢
          exact pow2_lt_next_power_of_2 _ t hdpos hT2
        have hexists : ∃ r ∈ sortRects rects, T < r.1 ∨ T < r.2.1 := by
          have hmapne : ∀ f : ℤ × ℤ × ℕ → ℤ, rects.map f ≠ [] := by
            intro f hcon
            exact hne (List.map_eq_nil_iff.mp hcon)
          rcases lt_max_iff.mp hTd with hx | hx
          · have hmem : maxw ∈ rects.map fun r => r.1 := by
              rw [hmaxw]
              exact listMax_mem _ (hmapne _)
            obtain ⟨r, hr, hr1⟩ := List.mem_map.mp hmem
            refine ⟨r, ?_, Or.inl (by rw [hr1]; exact hx)⟩
            simp only [sortRects]
            exact List.mem_mergeSort.mpr hr
          · have hmem : maxh ∈ rects.map fun r => r.2.1 := by
              rw [hmaxh]
              exact listMax_mem _ (hmapne _)
            obtain ⟨r, hr, hr1⟩ := List.mem_map.mp hmem
            refine ⟨r, ?_, Or.inr (by rw [hr1]; exact hx)⟩
            simp only [sortRects]
            exact List.mem_mergeSort.mpr hr
        exact packAllRects_none_of_oversize T T (sortRects rects) [] []
          (shelvesInv_nil T T) hdims2 hexists
  · obtain ⟨shelves2, hinv2, hplaced2, hpw2⟩ :=
      packAllRects_correct S S (sortRects rects) [] [] placed hdims2
        (shelvesInv_nil S S) (by simp) (by simp) hpackS
    exact hpw2
  · obtain ⟨shelves2, hinv2, hplaced2, hpw2⟩ :=
      packAllRects_correct S S (sortRects rects) [] [] placed hdims2
        (shelvesInv_nil S S) (by simp) (by simp) hpackS
    intro r hr
    exact placedIn_bounds S S shelves2 r hinv2 (hplaced2 r hr)

/-- Concrete evaluation backing the C8 witness: one 3x2 rectangle packs
at the origin of a 16x16 atlas (16 is already the floor size). -/
theorem pack_rectangles_one_rect :
    pack_rectangles [((3 : ℤ), 2, 0)] = some ([⟨0, 0, 0, 3, 2⟩], 16, 16) := by
  have hsort : sortRects [((3 : ℤ), 2, 0)] = [(3, 2, 0)] := by
    unfold sortRects
    rw [List.mergeSort]
  have hcs : ceilSqrt (6 : ℤ) = 3 := by
    simp only [ceilSqrt]
    rw [show ((6 : ℤ)).toNat = 6 from rfl, show Nat.sqrt 6 = 2 by norm_num]
    norm_num
  have hnp3 : next_power_of_2 (3 : ℤ) = 4 := by
    unfold next_power_of_2
    rw [if_neg (by norm_num : ¬ (3 : ℤ) ≤ 0),
      show ((3 : ℤ)).toNat = 3 from rfl,
      show Nat.clog 2 3 = 2 by norm_num [Nat.clog]]
    norm_num
  have hpack : packAllRects 16 16 [((3 : ℤ), 2, 0)] [] [] =
      some [⟨0, 0, 0, 3, 2⟩] := by decide
  show packLoop (sortRects [((3 : ℤ), 2, 0)])
      (max (max 16 (next_power_of_2 (ceilSqrt
          (([((3 : ℤ), 2, 0)]).map fun r => r.1 * r.2.1).sum)))
        (next_power_of_2 (max (listMax (([((3 : ℤ), 2, 0)]).map fun r => r.1))
          (listMax (([((3 : ℤ), 2, 0)]).map fun r => r.2.1))))) =
      some ([⟨0, 0, 0, 3, 2⟩], 16, 16)
  rw [hsort,
    show (([((3 : ℤ), 2, 0)]).map fun r => r.1 * r.2.1).sum = 6 from rfl,
    hcs]
  show packLoop [((3 : ℤ), 2, 0)]
      (16 ⊔ next_power_of_2 3 ⊔ next_power_of_2 ((3 : ℤ) ⊔ 2)) =
      some ([⟨0, 0, 0, 3, 2⟩], 16, 16)
  rw [show ((3 : ℤ) ⊔ 2) = 3 by omega, hnp3,
    show ((16 : ℤ) ⊔ 4 ⊔ 4) = 16 by omega]
  rw [packLoop, dif_pos (by norm_num : (0 : ℤ) < 16 ∧ (16 : ℤ) ≤ 8192), hpack]

/-- Witness for C8 at the concrete input [(3, 2, 0)]. -/
theorem pack_rectangles_correct_witness :
    pack_rectangles [((3 : ℤ), 2, 0)] = some ([⟨0, 0, 0, 3, 2⟩], 16, 16) ∧
    (∃ k : ℕ, (16 : ℤ) = 2 ^ k) ∧
    List.Pairwise (fun a b => Disjoint (region a) (region b))
      [(⟨0, 0, 0, 3, 2⟩ : PlacedRect)] ∧
    (∀ r ∈ [(⟨0, 0, 0, 3, 2⟩ : PlacedRect)],
      0 ≤ r.x ∧ r.x + r.width ≤ 16 ∧ 0 ≤ r.y ∧ r.y + r.height ≤ 16) := by
  have hmain := pack_rectangles_correct [((3 : ℤ), 2, 0)] (by decide)
    (by decide) [⟨0, 0, 0, 3, 2⟩] 16 16 pack_rectangles_one_rect
  exact ⟨pack_rectangles_one_rect, hmain.2.1, hmain.2.2.2.2.2.2.1,
    hmain.2.2.2.2.2.2.2⟩

/-! ## The rotation fallback round-trip (C4)

_quaternion_angular_error from rotation_utils.py, and a concrete unit
quaternion on which the round-trip of the in-repository fallback path is
evaluated exactly. -/

/-- _quaternion_angular_error: 2 * degrees(acos(clamped |dot|)). -/
noncomputable def quaternion_angular_error (q1 q2 : Quat) : ℝ :=
  let q1n := normalize_quaternion q1
  let q2n := normalize_quaternion q2
  let dot := q1n.w * q2n.w + q1n.x * q2n.x + q1n.y * q2n.y + q1n.z * q2n.z
  let dotc := max (-1) (min 1 |dot|)
  2 * degrees (Real.arccos dotc)

/-- The unit quaternion of the intrinsic-XYZ rotation with roll 90
degrees, pitch 0, yaw 45 degrees: qx(90) * qz(45), written with exact
half-angle values.  Its pitch is zero, far from gimbal lock. -/
noncomputable def qRollYaw : Quat :=
  ⟨Real.sqrt 2 / 2 * Real.cos (Real.pi / 8),
    Real.sqrt 2 / 2 * Real.cos (Real.pi / 8),
    -(Real.sqrt 2 / 2 * Real.sin (Real.pi / 8)),
    Real.sqrt 2 / 2 * Real.sin (Real.pi / 8)⟩

/-- The quaternion the fallback round-trip actually returns:
qx(90) * qy(-45), a genuinely different rotation. -/
noncomputable def qBack : Quat :=
  ⟨Real.sqrt 2 / 2 * Real.cos (Real.pi / 8),
    Real.sqrt 2 / 2 * Real.cos (Real.pi / 8),
    -(Real.sqrt 2 / 2 * Real.sin (Real.pi / 8)),
    -(Real.sqrt 2 / 2 * Real.sin (Real.pi / 8))⟩

theorem sqrt2_mul_self : Real.sqrt 2 * Real.sqrt 2 = 2 :=
  Real.mul_self_sqrt (by norm_num)

theorem sqrt2_pos : 0 < Real.sqrt 2 := Real.sqrt_pos.mpr (by norm_num)

theorem pi8_cos_pos : 0 < Real.cos (Real.pi / 8) := by
  apply Real.cos_pos_of_mem_Ioo
  constructor
  · have := Real.pi_pos
    linarith
  · have := Real.pi_pos
    linarith

theorem pi8_sin_pos : 0 < Real.sin (Real.pi / 8) := by
  apply Real.sin_pos_of_pos_of_lt_pi
  · have := Real.pi_pos
    linarith
  · have := Real.pi_pos
    linarith

theorem pi8_sq :
    Real.cos (Real.pi / 8) * Real.cos (Real.pi / 8) +
      Real.sin (Real.pi / 8) * Real.sin (Real.pi / 8) = 1 := by
  have h := Real.sin_sq_add_cos_sq (Real.pi / 8)
  nlinarith [h]

theorem pi8_cos_sub :
    Real.cos (Real.pi / 8) * Real.cos (Real.pi / 8) -
      Real.sin (Real.pi / 8) * Real.sin (Real.pi / 8) = Real.sqrt 2 / 2 := by
  have h := Real.cos_two_mul' (Real.pi / 8)
  rw [show 2 * (Real.pi / 8) = Real.pi / 4 by ring, Real.cos_pi_div_four] at h
  nlinarith [h]

theorem pi8_two_cs :
    2 * (Real.cos (Real.pi / 8) * Real.sin (Real.pi / 8)) = Real.sqrt 2 / 2 := by
  have h := Real.sin_two_mul (Real.pi / 8)
  rw [show 2 * (Real.pi / 8) = Real.pi / 4 by ring, Real.sin_pi_div_four] at h
  nlinarith [h]

theorem normalize_qRollYaw : normalize_quaternion qRollYaw = qRollYaw := by
  unfold normalize_quaternion
  have hmag : qRollYaw.w * qRollYaw.w + qRollYaw.x * qRollYaw.x +
      qRollYaw.y * qRollYaw.y + qRollYaw.z * qRollYaw.z = 1 := by
    show Real.sqrt 2 / 2 * Real.cos (Real.pi / 8) * (Real.sqrt 2 / 2 * Real.cos (Real.pi / 8)) +
        Real.sqrt 2 / 2 * Real.cos (Real.pi / 8) * (Real.sqrt 2 / 2 * Real.cos (Real.pi / 8)) +
        -(Real.sqrt 2 / 2 * Real.sin (Real.pi / 8)) * -(Real.sqrt 2 / 2 * Real.sin (Real.pi / 8)) +
        Real.sqrt 2 / 2 * Real.sin (Real.pi / 8) * (Real.sqrt 2 / 2 * Real.sin (Real.pi / 8)) = 1
    nlinarith [sqrt2_mul_self, pi8_sq]
  rw [hmag, Real.sqrt_one, if_neg one_ne_zero]
  have hw : ¬ qRollYaw.w / 1 < 0 := by
    rw [div_one]
    push_neg
    exact mul_nonneg (by positivity) pi8_cos_pos.le
  rw [if_neg hw]
  show (⟨qRollYaw.w / 1, qRollYaw.x / 1, qRollYaw.y / 1, qRollYaw.z / 1⟩ : Quat) = qRollYaw
  simp only [div_one]

theorem normalize_qBack : normalize_quaternion qBack = qBack := by
  unfold normalize_quaternion
  have hmag : qBack.w * qBack.w + qBack.x * qBack.x +
      qBack.y * qBack.y + qBack.z * qBack.z = 1 := by
    show Real.sqrt 2 / 2 * Real.cos (Real.pi / 8) * (Real.sqrt 2 / 2 * Real.cos (Real.pi / 8)) +
        Real.sqrt 2 / 2 * Real.cos (Real.pi / 8) * (Real.sqrt 2 / 2 * Real.cos (Real.pi / 8)) +
        -(Real.sqrt 2 / 2 * Real.sin (Real.pi / 8)) * -(Real.sqrt 2 / 2 * Real.sin (Real.pi / 8)) +
        -(Real.sqrt 2 / 2 * Real.sin (Real.pi / 8)) * -(Real.sqrt 2 / 2 * Real.sin (Real.pi / 8)) = 1
    nlinarith [sqrt2_mul_self, pi8_sq]
  rw [hmag, Real.sqrt_one, if_neg one_ne_zero]
  have hw : ¬ qBack.w / 1 < 0 := by
    rw [div_one]
    push_neg
    exact mul_nonneg (by positivity) pi8_cos_pos.le
  rw [if_neg hw]
  show (⟨qBack.w / 1, qBack.x / 1, qBack.y / 1, qBack.z / 1⟩ : Quat) = qBack
  simp only [div_one]

theorem pyRoundR_intCast (a : ℤ) : pyRoundR (a : ℝ) = a := by
  unfold pyRoundR
  rw [Int.fract_intCast, if_pos (by norm_num : (0 : ℝ) < 1 / 2), Int.floor_intCast]

theorem normalize_angle_intCast (n : ℤ) (h1 : (-180 : ℝ) < n)
    (h2 : (n : ℝ) ≤ 180) : normalize_angle (n : ℝ) = n := by
  unfold normalize_angle
  have hwrap : wrap_angle (n : ℝ) = n := by
    unfold wrap_angle
    rw [toIocMod_eq_self]
    constructor
    · exact h1
    · rw [show (-180 : ℝ) + 360 = 180 by norm_num]
      exact h2
  rw [hwrap, show (100 : ℝ) * n = ((100 * n : ℤ) : ℝ) by push_cast; ring,
    pyRoundR_intCast]
  push_cast
  ring

theorem qRollYaw_roll :
    atan2 (2 * (qRollYaw.w * qRollYaw.x + qRollYaw.y * qRollYaw.z))
      (1 - 2 * (qRollYaw.x * qRollYaw.x + qRollYaw.y * qRollYaw.y)) = Real.pi / 2 := by
  have hsinr : 2 * (qRollYaw.w * qRollYaw.x + qRollYaw.y * qRollYaw.z) =
      Real.sqrt 2 / 2 := by
    show 2 * (Real.sqrt 2 / 2 * Real.cos (Real.pi / 8) * (Real.sqrt 2 / 2 * Real.cos (Real.pi / 8)) +
        -(Real.sqrt 2 / 2 * Real.sin (Real.pi / 8)) * (Real.sqrt 2 / 2 * Real.sin (Real.pi / 8))) =
      Real.sqrt 2 / 2
    linear_combination ((Real.cos (Real.pi / 8) * Real.cos (Real.pi / 8) -
      Real.sin (Real.pi / 8) * Real.sin (Real.pi / 8)) / 2) * sqrt2_mul_self +
      pi8_cos_sub
  have hcosr : 1 - 2 * (qRollYaw.x * qRollYaw.x + qRollYaw.y * qRollYaw.y) = 0 := by
    show 1 - 2 * (Real.sqrt 2 / 2 * Real.cos (Real.pi / 8) * (Real.sqrt 2 / 2 * Real.cos (Real.pi / 8)) +
        -(Real.sqrt 2 / 2 * Real.sin (Real.pi / 8)) * -(Real.sqrt 2 / 2 * Real.sin (Real.pi / 8))) = 0
    nlinarith [sqrt2_mul_self, pi8_sq]
  rw [hsinr, hcosr]
  unfold atan2
  have hmk : (⟨0, Real.sqrt 2 / 2⟩ : ℂ) = (↑(Real.sqrt 2 / 2) : ℂ) * Complex.I := by
    rw [Complex.mk_eq_add_mul_I]
    simp
  rw [hmk, Complex.arg_real_mul Complex.I (by positivity), Complex.arg_I]

theorem qRollYaw_sinp :
    2 * (qRollYaw.w * qRollYaw.y - qRollYaw.z * qRollYaw.x) =
      -(Real.sqrt 2 / 2) := by
  show 2 * (Real.sqrt 2 / 2 * Real.cos (Real.pi / 8) * -(Real.sqrt 2 / 2 * Real.sin (Real.pi / 8)) -
      Real.sqrt 2 / 2 * Real.sin (Real.pi / 8) * (Real.sqrt 2 / 2 * Real.cos (Real.pi / 8))) =
    -(Real.sqrt 2 / 2)
  linear_combination (-(Real.cos (Real.pi / 8) * Real.sin (Real.pi / 8))) *
    sqrt2_mul_self - pi8_two_cs

theorem sqrt2_div_two_lt_one : Real.sqrt 2 / 2 < 1 := by
  have h : Real.sqrt 2 < 2 := by
    nlinarith [sqrt2_mul_self, Real.sqrt_nonneg 2]
  linarith

theorem arcsin_neg_sqrt2_div_two :
    Real.arcsin (-(Real.sqrt 2 / 2)) = -(Real.pi / 4) := by
  rw [← Real.sin_pi_div_four, ← Real.sin_neg]
  apply Real.arcsin_sin
  · have := Real.pi_pos
    linarith
  · have := Real.pi_pos
    linarith

theorem qRollYaw_yaw :
    atan2 (2 * (qRollYaw.w * qRollYaw.z + qRollYaw.x * qRollYaw.y))
      (1 - 2 * (qRollYaw.y * qRollYaw.y + qRollYaw.z * qRollYaw.z)) = 0 := by
  have hsiny : 2 * (qRollYaw.w * qRollYaw.z + qRollYaw.x * qRollYaw.y) = 0 := by
    show 2 * (Real.sqrt 2 / 2 * Real.cos (Real.pi / 8) * (Real.sqrt 2 / 2 * Real.sin (Real.pi / 8)) +
        Real.sqrt 2 / 2 * Real.cos (Real.pi / 8) * -(Real.sqrt 2 / 2 * Real.sin (Real.pi / 8))) = 0
    ring
  have hcosy : 1 - 2 * (qRollYaw.y * qRollYaw.y + qRollYaw.z * qRollYaw.z) =
      Real.sqrt 2 / 2 := by
    show 1 - 2 * (-(Real.sqrt 2 / 2 * Real.sin (Real.pi / 8)) * -(Real.sqrt 2 / 2 * Real.sin (Real.pi / 8)) +
        Real.sqrt 2 / 2 * Real.sin (Real.pi / 8) * (Real.sqrt 2 / 2 * Real.sin (Real.pi / 8))) =
      Real.sqrt 2 / 2
    nlinarith [sqrt2_mul_self, pi8_sq, pi8_cos_sub]
  rw [hsiny, hcosy]
  unfold atan2
  have hmk : (⟨Real.sqrt 2 / 2, 0⟩ : ℂ) = (↑(Real.sqrt 2 / 2) : ℂ) := by
    rw [Complex.mk_eq_add_mul_I]
    simp
  rw [hmk]
  exact Complex.arg_ofReal_of_nonneg (by positivity)

theorem degrees_pi_div_two : degrees (Real.pi / 2) = 90 := by
  unfold degrees
  have hpi := Real.pi_ne_zero
  field_simp
  ring

theorem degrees_neg_pi_div_four : degrees (-(Real.pi / 4)) = -45 := by
  unfold degrees
  have hpi := Real.pi_ne_zero
  field_simp
  ring

theorem degrees_zero : degrees 0 = 0 := by
  unfold degrees
  simp

/-- The fallback quaternion-to-Euler extraction at qRollYaw: it returns
[90, -45, 0], reading a pitch of -45 degrees out of a rotation whose
intrinsic-XYZ pitch is zero (the extraction formulas are the ZYX ones). -/
theorem qRollYaw_euler : quaternion_to_euler qRollYaw = (90, -45, 0) := by
  have hfst : quaternion_to_euler qRollYaw =
      (normalize_angle (degrees (atan2
          (2 * (qRollYaw.w * qRollYaw.x + qRollYaw.y * qRollYaw.z))
          (1 - 2 * (qRollYaw.x * qRollYaw.x + qRollYaw.y * qRollYaw.y)))),
        normalize_angle (degrees
          (if 1 ≤ |2 * (qRollYaw.w * qRollYaw.y - qRollYaw.z * qRollYaw.x)| then
            copysign (Real.pi / 2) (2 * (qRollYaw.w * qRollYaw.y - qRollYaw.z * qRollYaw.x))
          else Real.arcsin (2 * (qRollYaw.w * qRollYaw.y - qRollYaw.z * qRollYaw.x)))),
        normalize_angle (degrees (atan2
          (2 * (qRollYaw.w * qRollYaw.z + qRollYaw.x * qRollYaw.y))
          (1 - 2 * (qRollYaw.y * qRollYaw.y + qRollYaw.z * qRollYaw.z))))) := by
    unfold quaternion_to_euler quaternion_to_euler_xyz_fallback
    rw [normalize_qRollYaw]
  rw [hfst, qRollYaw_roll, qRollYaw_sinp, qRollYaw_yaw]
  have hbranch : ¬ (1 ≤ |(-(Real.sqrt 2 / 2) : ℝ)|) := by
    rw [abs_neg, abs_of_pos (by positivity)]
    push_neg
    exact sqrt2_div_two_lt_one
  rw [if_neg hbranch, arcsin_neg_sqrt2_div_two, degrees_pi_div_two,
    degrees_neg_pi_div_four, degrees_zero]
  have h90 : normalize_angle (90 : ℝ) = 90 := by
    have h := normalize_angle_intCast 90 (by norm_num) (by norm_num)
    simpa using h
  have h45 : normalize_angle (-45 : ℝ) = -45 := by
    have h := normalize_angle_intCast (-45) (by norm_num) (by norm_num)
    simpa using h
  have h0 : normalize_angle (0 : ℝ) = 0 := by
    have h := normalize_angle_intCast 0 (by norm_num) (by norm_num)
    simpa using h
  rw [h90, h45, h0]

theorem euler_back_fallback :
    euler_to_quaternion_xyz_fallback (90, -45, 0) = qBack := by
  show normalize_quaternion
      ⟨Real.cos (radians (90 : ℝ) * (1 / 2)) * Real.cos (radians (-45 : ℝ) * (1 / 2)) * Real.cos (radians (0 : ℝ) * (1 / 2)) -
          Real.sin (radians (90 : ℝ) * (1 / 2)) * Real.sin (radians (-45 : ℝ) * (1 / 2)) * Real.sin (radians (0 : ℝ) * (1 / 2)),
        Real.sin (radians (90 : ℝ) * (1 / 2)) * Real.cos (radians (-45 : ℝ) * (1 / 2)) * Real.cos (radians (0 : ℝ) * (1 / 2)) +
          Real.cos (radians (90 : ℝ) * (1 / 2)) * Real.sin (radians (-45 : ℝ) * (1 / 2)) * Real.sin (radians (0 : ℝ) * (1 / 2)),
        Real.cos (radians (90 : ℝ) * (1 / 2)) * Real.sin (radians (-45 : ℝ) * (1 / 2)) * Real.cos (radians (0 : ℝ) * (1 / 2)) -
          Real.sin (radians (90 : ℝ) * (1 / 2)) * Real.cos (radians (-45 : ℝ) * (1 / 2)) * Real.sin (radians (0 : ℝ) * (1 / 2)),
        Real.cos (radians (90 : ℝ) * (1 / 2)) * Real.cos (radians (-45 : ℝ) * (1 / 2)) * Real.sin (radians (0 : ℝ) * (1 / 2)) +
          Real.sin (radians (90 : ℝ) * (1 / 2)) * Real.sin (radians (-45 : ℝ) * (1 / 2)) * Real.cos (radians (0 : ℝ) * (1 / 2))⟩ = qBack
  have hr : radians (90 : ℝ) * (1 / 2) = Real.pi / 4 := by
    unfold radians
    ring
  have hp : radians (-45 : ℝ) * (1 / 2) = -(Real.pi / 8) := by
    unfold radians
    ring
  have hy : radians (0 : ℝ) * (1 / 2) = 0 := by
    unfold radians
    ring
  rw [hr, hp, hy, Real.cos_pi_div_four, Real.sin_pi_div_four, Real.cos_neg,
    Real.sin_neg, Real.cos_zero, Real.sin_zero]
  have key : ∀ a b c d : ℝ,
      a = Real.sqrt 2 / 2 * Real.cos (Real.pi / 8) →
      b = Real.sqrt 2 / 2 * Real.cos (Real.pi / 8) →
      c = -(Real.sqrt 2 / 2 * Real.sin (Real.pi / 8)) →
      d = -(Real.sqrt 2 / 2 * Real.sin (Real.pi / 8)) →
      normalize_quaternion ⟨a, b, c, d⟩ = qBack := by
    intro a b c d ha hb hc hd
    subst ha
    subst hb
    subst hc
    subst hd
    exact normalize_qBack
  exact key _ _ _ _ (by ring) (by ring) (by ring) (by ring)

theorem euler_back : euler_to_quaternion (90, -45, 0) = qBack := by
  unfold euler_to_quaternion
  rw [euler_back_fallback, normalize_qBack]

theorem cc_lt_one :
    Real.cos (Real.pi / 8) * Real.cos (Real.pi / 8) < 1 := by
  nlinarith [pi8_sq, pi8_sin_pos]

theorem error_eval : quaternion_angular_error qRollYaw qBack =
    2 * degrees (Real.arccos (Real.cos (Real.pi / 8) * Real.cos (Real.pi / 8))) := by
  have hdot : qRollYaw.w * qBack.w + qRollYaw.x * qBack.x + qRollYaw.y * qBack.y +
      qRollYaw.z * qBack.z = Real.cos (Real.pi / 8) * Real.cos (Real.pi / 8) := by
    show Real.sqrt 2 / 2 * Real.cos (Real.pi / 8) * (Real.sqrt 2 / 2 * Real.cos (Real.pi / 8)) +
        Real.sqrt 2 / 2 * Real.cos (Real.pi / 8) * (Real.sqrt 2 / 2 * Real.cos (Real.pi / 8)) +
        -(Real.sqrt 2 / 2 * Real.sin (Real.pi / 8)) * -(Real.sqrt 2 / 2 * Real.sin (Real.pi / 8)) +
        Real.sqrt 2 / 2 * Real.sin (Real.pi / 8) * -(Real.sqrt 2 / 2 * Real.sin (Real.pi / 8)) =
      Real.cos (Real.pi / 8) * Real.cos (Real.pi / 8)
    linear_combination (Real.cos (Real.pi / 8) * Real.cos (Real.pi / 8) / 2) * sqrt2_mul_self
  have hccpos : 0 < Real.cos (Real.pi / 8) * Real.cos (Real.pi / 8) :=
    mul_pos pi8_cos_pos pi8_cos_pos
  show 2 * degrees (Real.arccos (max (-1) (min 1
      |(normalize_quaternion qRollYaw).w * (normalize_quaternion qBack).w +
        (normalize_quaternion qRollYaw).x * (normalize_quaternion qBack).x +
        (normalize_quaternion qRollYaw).y * (normalize_quaternion qBack).y +
        (normalize_quaternion qRollYaw).z * (normalize_quaternion qBack).z|))) = _
  rw [normalize_qRollYaw, normalize_qBack, hdot, abs_of_pos hccpos,
    min_eq_right (le_of_lt cc_lt_one), max_eq_right (by linarith)]

theorem sqrt2_lt_threehalves : Real.sqrt 2 < 3 / 2 := by
  nlinarith [sqrt2_mul_self, Real.sqrt_nonneg 2]

theorem cc_eq : Real.cos (Real.pi / 8) * Real.cos (Real.pi / 8) =
    1 / 2 + Real.sqrt 2 / 4 := by
  linarith [pi8_sq, pi8_cos_sub]

theorem arccos_cc_gt :
    Real.pi / 72 < Real.arccos (Real.cos (Real.pi / 8) * Real.cos (Real.pi / 8)) := by
  by_contra hcon
  push_neg at hcon
  have hccpos : 0 < Real.cos (Real.pi / 8) * Real.cos (Real.pi / 8) :=
    mul_pos pi8_cos_pos pi8_cos_pos
  have hcos : Real.cos (Real.arccos (Real.cos (Real.pi / 8) * Real.cos (Real.pi / 8))) =
      Real.cos (Real.pi / 8) * Real.cos (Real.pi / 8) :=
    Real.cos_arccos (by linarith) (le_of_lt cc_lt_one)
  have hmono : Real.cos (Real.pi / 72) ≤
      Real.cos (Real.arccos (Real.cos (Real.pi / 8) * Real.cos (Real.pi / 8))) :=
    Real.cos_le_cos_of_nonneg_of_le_pi (Real.arccos_nonneg _)
      (by linarith [Real.pi_pos]) hcon
  rw [hcos, cc_eq] at hmono
  have hlow : 1 - (Real.pi / 72) ^ 2 / 2 ≤ Real.cos (Real.pi / 72) :=
    Real.one_sub_sq_div_two_le_cos
  have hpi : Real.pi < 3.15 := Real.pi_lt_d2
  have hpi0 := Real.pi_pos
  nlinarith [sqrt2_lt_threehalves, Real.sqrt_nonneg 2]

/-- C4: the in-repository fallback conversions do NOT round-trip. The
extraction _quaternion_to_euler_xyz_fallback implements the ZYX formulas
while _euler_to_quaternion_xyz_fallback composes qx*qy*qz (XYZ), so on the
unit quaternion qRollYaw = qx(90deg)*qz(45deg) (whose middle-axis pitch is
0, far from gimbal lock) quaternion_to_euler returns [90, -45, 0] and the
round-trip euler_to_quaternion(quaternion_to_euler(q)) lands at angular
error 2*arccos(cos(pi/8)^2) of about 62.8 degrees — already beyond the
5-degree near-lock allowance, let alone the 0.1-degree tolerance the
claim asserts for quaternions away from lock. -/
theorem rotation_fallback_roundtrip_error_exceeds_tolerance :
    quaternion_to_euler qRollYaw = (90, -45, 0) ∧
      5 < quaternion_angular_error qRollYaw
        (euler_to_quaternion (quaternion_to_euler qRollYaw)) := by
  refine ⟨qRollYaw_euler, ?_⟩
  rw [qRollYaw_euler, euler_back, error_eval]
  unfold degrees
  have hpi := Real.pi_pos
  rw [show 2 * (Real.arccos (Real.cos (Real.pi / 8) * Real.cos (Real.pi / 8)) * 180 / Real.pi) =
    360 * Real.arccos (Real.cos (Real.pi / 8) * Real.cos (Real.pi / 8)) / Real.pi by ring]
  rw [lt_div_iff₀ hpi]
  linarith [arccos_cc_gt]

end Blocksmith
